import Mathlib

/-!
# Verification of the RagWithGraphStore ingestion-to-retrieval core

Shallow embedding of the backend's ingestion and retrieval services
(`app/services/*.py`, `app/db/qdrant_client.py`, `app/models/document.py`,
`app/utils/task_tracker.py`) together with proofs about the spec's claims.

Modelling conventions:
* Python `str` values are modelled as Lean `String` / `List Char`
  (ASCII semantics for case mapping and `\s`, which is what the data here uses).
* Python floats are modelled as exact rationals `ℚ`; the score comparisons the
  claims make are robust to this idealization.
* Fallible calls (LLM, database sessions) are modelled with `Except String`
  parameters, so that "the code catches every exception" becomes a statement
  about totality of the Lean function.
* The Neo4j graph is modelled as an explicit `GraphState`; each Cypher query of
  the source is translated to a function on that state.
-/

namespace RagGraph

/-! ## Python string primitives

Models of the `str` operations used by `entity_extraction_service.py`:
`strip`, `lower`, `upper`, `rstrip(".,;:!?")` and `re.sub(r"\s+", " ", ·)`.
`\s` and case mapping use ASCII semantics (the Python code applies them to
ASCII entity names). -/

/-- Python's `\s` character class (ASCII): space, tab, LF, CR, VT, FF. -/
def isSpaceChar (c : Char) : Bool :=
  c = ' ' || c = '\t' || c = '\n' || c = '\r' || c = Char.ofNat 11 || c = Char.ofNat 12

/-- Python's `\w` word-character class (ASCII), used for `\b` boundaries. -/
def isWordChar (c : Char) : Bool :=
  c.isAlpha || c.isDigit || c = '_'

/-- The punctuation set of `normalized.rstrip(".,;:!?")`. -/
def isPunctChar (c : Char) : Bool :=
  c = '.' || c = ',' || c = ';' || c = ':' || c = '!' || c = '?'

/-- Drop a maximal trailing run of characters satisfying `p`
(the semantics of Python `str.rstrip`). -/
def dropTrailWhile (p : Char → Bool) : List Char → List Char
  | [] => []
  | c :: rest =>
    match dropTrailWhile p rest with
    | [] => if p c then [] else [c]
    | r => c :: r

/-- Python `str.strip()`: remove leading and trailing whitespace. -/
def pyStrip (l : List Char) : List Char :=
  dropTrailWhile isSpaceChar (l.dropWhile isSpaceChar)

/-- ASCII lower-casing of one character (Python `str.lower` on ASCII data). -/
def toLowerChar (c : Char) : Char :=
  if 65 ≤ c.toNat ∧ c.toNat ≤ 90 then Char.ofNat (c.toNat + 32) else c

/-- ASCII upper-casing of one character (Python `str.upper` on ASCII data). -/
def toUpperChar (c : Char) : Char :=
  if 97 ≤ c.toNat ∧ c.toNat ≤ 122 then Char.ofNat (c.toNat - 32) else c

def pyLower (l : List Char) : List Char := l.map toLowerChar

def pyUpper (l : List Char) : List Char := l.map toUpperChar

/-- Model of `re.sub(r"\s+", " ", ·)`: replace each maximal whitespace run by one space. -/
def collapseWs : List Char → List Char
  | [] => []
  | [c] => if isSpaceChar c then [' '] else [c]
  | c :: d :: rest =>
    if isSpaceChar c then
      if isSpaceChar d then collapseWs (d :: rest)
      else ' ' :: collapseWs (d :: rest)
    else c :: collapseWs (d :: rest)

/-! ## The corporate-suffix regex

`_SUFFIXES = re.compile(r"\s*\b(inc\.?|corp\.?|ltd\.?|llc\.?|co\.?|plc\.?|gmbh|s\.a\.?|n\.v\.?)\s*$", re.IGNORECASE)`

Because every alternative ends at `\s*$`, a match always extends to the end of
the string, so `\s*\b(...)\s*$`.sub("", s)` removes the suffix starting at the
leftmost position where the pattern matches (at most one replacement happens).
All alternatives start with a letter, so the leading `\s*` necessarily consumes
the whole whitespace run in any successful match. -/

/-- Strip a literal token (case-insensitively) from the head of a list. -/
def stripTok : List Char → List Char → Option (List Char)
  | [], l => some l
  | _, [] => none
  | t :: ts, c :: cs => if toLowerChar c = t then stripTok ts cs else none

/-- The alternatives of the suffix regex, each paired with whether an optional
trailing `.` follows (`gmbh` has none; `s.a` / `n.v` carry inner dots). -/
def suffixToks : List (List Char) :=
  ["inc".data, "corp".data, "ltd".data, "llc".data, "co".data, "plc".data,
   "gmbh".data, "s.a".data, "n.v".data]

/-- Whether `gmbh` is the token (the only alternative without an optional dot). -/
def tokNoDot (t : List Char) : Bool := t = "gmbh".data

/-- Does `tok` (with its optional trailing dot) followed by `\s*$` match `l`? -/
def tokThenEnd (tok : List Char) (l : List Char) : Bool :=
  match stripTok tok l with
  | none => false
  | some rest =>
    rest.all isSpaceChar ||
      (!tokNoDot tok &&
        match rest with
        | '.' :: r => r.all isSpaceChar
        | _ => false)

/-- Does `\s*\b(alt)\s*$` match at this position?  `prev` is the character
just before the position (`none` at the start of the string). -/
def matchesHere (prev : Option Char) (l : List Char) : Bool :=
  let rest := l.dropWhile isSpaceChar
  match rest with
  | [] => false
  | c :: _ =>
    let prevW : Bool :=
      if (l.takeWhile isSpaceChar).isEmpty then
        match prev with
        | some p => isWordChar p
        | none => false
      else false
    (isWordChar c != prevW) && suffixToks.any (fun t => tokThenEnd t rest)

/-- Scan for the leftmost match of the suffix regex; on a match the whole
tail (which the match spans, up to `$`) is replaced by the empty string. -/
def subSuffixAux : Option Char → List Char → List Char
  | _, [] => []
  | prev, c :: rest =>
    if matchesHere prev (c :: rest) then []
    else c :: subSuffixAux (some c) rest

/-- Model of `_SUFFIXES.sub("", l)`. -/
def subSuffix (l : List Char) : List Char := subSuffixAux none l

/-- Model of `normalize_entity_name` from `entity_extraction_service.py`:
lowercase + strip, remove one corporate suffix, strip trailing punctuation,
collapse whitespace. -/
def normalizeChars (l : List Char) : List Char :=
  pyStrip (collapseWs (dropTrailWhile isPunctChar (subSuffix (pyLower (pyStrip l)))))

def normalize_entity_name (s : String) : String :=
  (normalizeChars s.data).asString

def pyStripStr (s : String) : String := (pyStrip s.data).asString

def pyUpperStr (s : String) : String := (pyUpper s.data).asString

/-! Specification predicates used by the idempotence analysis of
`normalize_entity_name`. -/

/-- The first character (if any) does not satisfy `p`. -/
def headNot (p : Char → Bool) (l : List Char) : Prop :=
  match l with
  | [] => True
  | c :: _ => p c = false

/-- The last character (if any) does not satisfy `p`. -/
def lastNot (p : Char → Bool) : List Char → Prop
  | [] => True
  | [c] => p c = false
  | _ :: rest => lastNot p rest

/-- Whitespace-collapsed shape: every whitespace character is a plain space and
no two adjacent characters are both whitespace. -/
def collapsedOK (l : List Char) : Prop :=
  (∀ c ∈ l, isSpaceChar c = false ∨ c = ' ') ∧
  List.Chain' (fun a b => isSpaceChar a = false ∨ isSpaceChar b = false) l

/-- Deduplicate keeping the first occurrence of each element
(the order `collect(DISTINCT …)` produces); `seen` accumulates emitted
elements. -/
def dedupFirstAux {α : Type} [DecidableEq α] (seen : List α) : List α → List α
  | [] => []
  | a :: rest =>
    if a ∈ seen then dedupFirstAux seen rest
    else a :: dedupFirstAux (a :: seen) rest

def dedupFirst {α : Type} [DecidableEq α] (l : List α) : List α :=
  dedupFirstAux [] l

/-! ## Entity extraction (`extract_entities_from_chunk`)

The LLM body runs inside `try/except`; the raw material the code works on is
the dict produced by `_parse_json_response` (which itself never raises: it
falls back to `{"entities": [], "relationships": []}`).  `RawEntity` /
`RawRel` hold the fields after the `.get(…, default)` accesses. -/

structure RawEntity where
  name : String
  type : String
deriving DecidableEq, Repr

structure RawRel where
  source : String
  target : String
  type : String
  description : String
deriving DecidableEq, Repr

structure RawExtraction where
  entities : List RawEntity
  relationships : List RawRel
deriving DecidableEq, Repr

structure EntityRec where
  name : String
  type : String
  normalized_name : String
deriving DecidableEq, Repr

structure RelRec where
  source : String
  target : String
  source_normalized : String
  target_normalized : String
  type : String
  description : String
deriving DecidableEq, Repr

structure ExtractionResult where
  entities : List EntityRec
  relationships : List RelRec
deriving DecidableEq, Repr

/-- The entity-validation loop: skip blank names, upper-case the type, and
deduplicate by the pair `(normalized_name, type)` via the `seen` set.
(The random UUID `id` the code also attaches is not modelled; no claim
concerns it.) -/
def buildEntities (seen : List (String × String)) : List RawEntity → List EntityRec
  | [] => []
  | e :: rest =>
    let name := pyStripStr e.name
    let etype := pyUpperStr (pyStripStr e.type)
    if name = "" then buildEntities seen rest
    else
      let norm := normalize_entity_name name
      if (norm, etype) ∈ seen then buildEntities seen rest
      else ⟨name, etype, norm⟩ :: buildEntities ((norm, etype) :: seen) rest

/-- The relationship-validation loop: keep only relationships whose source and
target both normalize into the chunk's own entity set. -/
def validateRels (entityNorms : List String) : List RawRel → List RelRec :=
  List.filterMap fun r =>
    let source := pyStripStr r.source
    let target := pyStripStr r.target
    let rtype := pyUpperStr (pyStripStr r.type)
    let sn := normalize_entity_name source
    let tn := normalize_entity_name target
    if sn ∈ entityNorms ∧ tn ∈ entityNorms then
      some ⟨source, target, sn, tn, rtype, r.description⟩
    else none

def emptyResult : ExtractionResult := ⟨[], []⟩

/-- Model of `extract_entities_from_chunk`: `outcome` is the combined outcome of the LLM
call and JSON parsing; any exception is caught and yields the empty result. -/
def extract_entities_from_chunk (outcome : Except String RawExtraction) :
    ExtractionResult :=
  match outcome with
  | .error _ => emptyResult
  | .ok raw =>
    let es := buildEntities [] raw.entities
    ⟨es, validateRels (es.map (·.normalized_name)) raw.relationships⟩

structure BatchChunk where
  id : String
  text : String
deriving DecidableEq, Repr

/-- Model of `extract_entities_batch`: semaphore-bounded fan-out writing into an
index-aligned results array.  Concurrency does not affect the per-index value,
so the batch is the index-aligned map below; blank-text chunks short-circuit to
the empty result, and the final `[r or empty for r in results]` never sees
`None` because every task fills its slot.  `outcomes i` is chunk `i`'s
extraction outcome. -/
def extract_entities_batch (chunks : List BatchChunk)
    (outcomes : Nat → Except String RawExtraction) : List ExtractionResult :=
  chunks.enum.map fun ic =>
    if pyStrip ic.2.text.data = [] then emptyResult
    else extract_entities_from_chunk (outcomes ic.1)

/-! ## The Neo4j graph store

Nodes and edges as explicit lists; `nid` models Neo4j's internal node id
(`id(e)`), which `delete_document` uses for its orphan sweep. -/

structure DocNode where
  id : String
  user_id : String
  filename : String
deriving DecidableEq, Repr

structure ChunkNode where
  id : String
  document_id : String
  text : String
  position : Nat
deriving DecidableEq, Repr

structure EntityNode where
  nid : Nat
  name : String
  normalized_name : String
  type : String
deriving DecidableEq, Repr

structure RelEdge where
  src : Nat
  tgt : Nat
  type : String
  description : String
deriving DecidableEq, Repr

structure GraphState where
  users : List String
  docs : List DocNode
  chunks : List ChunkNode
  owns : List (String × String)        -- (user id, document id)
  contains : List (String × String)    -- (document id, chunk id)
  entities : List EntityNode
  appears_in : List (Nat × String)     -- (entity nid, chunk id)
  relates_to : List RelEdge
  nextId : Nat                         -- fresh internal-id supply
deriving DecidableEq, Repr

/-! ### `store_entities_in_neo4j` (indexing_service.py) -/

/-- One `UNWIND` row of the entity write:
`MERGE (e:Entity {normalized_name, type}) ON CREATE SET e.id, e.name`,
then `MATCH (c:Chunk {id: $chunk_id}) MERGE (e)-[:APPEARS_IN]->(c)`
(no row, hence no edge, when the chunk node does not exist). -/
def mergeEntity (chunkId : String) (g : GraphState) (e : EntityRec) : GraphState :=
  let found := g.entities.find? fun x =>
    x.normalized_name == e.normalized_name && x.type == e.type
  let node := found.getD ⟨g.nextId, e.name, e.normalized_name, e.type⟩
  let g1 := match found with
    | some _ => g
    | none => { g with entities := g.entities ++ [node], nextId := g.nextId + 1 }
  if g1.chunks.any (fun c => c.id == chunkId) then
    if g1.appears_in.contains (node.nid, chunkId) then g1
    else { g1 with appears_in := g1.appears_in ++ [(node.nid, chunkId)] }
  else g1

/-- Model of `MERGE (source)-[r:RELATES_TO {type}]->(target) ON CREATE SET r.description`
for one matched endpoint pair. -/
def addRelEdge (rtype rdescription : String) (g : GraphState)
    (st : EntityNode × EntityNode) : GraphState :=
  if g.relates_to.any fun ed =>
      ed.src == st.1.nid && ed.tgt == st.2.nid && ed.type == rtype then g
  else { g with relates_to := g.relates_to ++ [⟨st.1.nid, st.2.nid, rtype, rdescription⟩] }

/-- One `UNWIND` row of the relationship write: `MATCH` every source and target
node by `normalized_name` (the Cypher pattern pairs all matches) and merge a
typed edge for each pair. -/
def mergeRel (g : GraphState) (r : RelRec) : GraphState :=
  let pairs := (g.entities.filter fun s => s.normalized_name == r.source_normalized).flatMap
    fun s => (g.entities.filter fun t => t.normalized_name == r.target_normalized).map
      fun t => (s, t)
  pairs.foldl (addRelEdge r.type r.description) g

def store_entities_in_neo4j (g : GraphState) (chunkId : String)
    (entities : List EntityRec) (relationships : List RelRec) : GraphState :=
  let g1 := entities.foldl (mergeEntity chunkId) g
  relationships.foldl mergeRel g1

/-! ### The GraphRAG traversal queries (graphrag_service.py) -/

def findChunk (g : GraphState) (cid : String) : Option ChunkNode :=
  g.chunks.find? fun c => c.id == cid

/-- Documents matching `(c:Chunk {id: cid})<-[:CONTAINS]-(d:Document)`. -/
def containingDocs (g : GraphState) (cid : String) : List DocNode :=
  g.docs.filter fun d => g.contains.contains (d.id, cid)

/-- Entities matching `(e:Entity)-[:APPEARS_IN]->(c)`. -/
def chunkEntities (g : GraphState) (cid : String) : List EntityNode :=
  g.entities.filter fun e => g.appears_in.contains (e.nid, cid)

/-- Undirected `RELATES_TO` adjacency, tagged with the edge's index so that
variable-length paths can require distinct relationships. -/
def neighborsVia (g : GraphState) (nid : Nat) : List (Nat × Nat) :=
  g.relates_to.enum.filterMap fun ie =>
    if ie.2.src == nid then some (ie.1, ie.2.tgt)
    else if ie.2.tgt == nid then some (ie.1, ie.2.src)
    else none

/-- Model of `(e)-[:RELATES_TO*1..2]-(related)` endpoints with their path length
(relationship-distinct paths, per Cypher uniqueness). -/
def relatedHops (g : GraphState) (e : EntityNode) : List (Nat × Nat) :=
  (neighborsVia g e.nid).map (fun im => (im.2, 1)) ++
  (neighborsVia g e.nid).flatMap fun im =>
    (neighborsVia g im.2).filterMap fun jn =>
      if jn.1 ≠ im.1 then some (jn.2, 2) else none

/-- One collected map of `MULTI_HOP_QUERY`; `none` models a Cypher `null`
coming from an `OPTIONAL MATCH` that found nothing. -/
structure MHTuple where
  entity : Option String
  entity_type : Option String
  related_entity : Option String
  related_entity_type : Option String
  hop_distance : Option Nat
  related_chunk_id : Option String
  related_chunk_text : Option String
deriving DecidableEq, Repr

structure MHRecord where
  chunk_id : String
  document_id : String
  filename : String
  entity_relations : List MHTuple
deriving DecidableEq, Repr

/-- Model of `MULTI_HOP_QUERY`: the anchor pattern is
`MATCH (c:Chunk {id})<-[:CONTAINS]-(d:Document)`; if it matches, the query
returns a (single, aggregated) record even when every `OPTIONAL MATCH` is
empty — the collected list then holds a single all-null map. -/
def multiHopRecord (g : GraphState) (cid : String) : Option MHRecord :=
  match findChunk g cid, containingDocs g cid with
  | some _, d :: _ =>
    let es := chunkEntities g cid
    let tuples :=
      if es.isEmpty then
        [⟨none, none, none, none, none, none, none⟩]
      else
        es.flatMap fun e =>
          let rels := (relatedHops g e).filterMap fun rh =>
            match g.entities.find? (fun x => x.nid == rh.1) with
            | some rel => if rel.nid ≠ e.nid then some (rel, rh.2) else none
            | none => none
          if rels.isEmpty then
            [⟨some e.name, some e.type, none, none, none, none, none⟩]
          else
            rels.flatMap fun rh =>
              let ocs := g.chunks.filter fun oc =>
                g.appears_in.contains (rh.1.nid, oc.id) && oc.id != cid
              if ocs.isEmpty then
                [⟨some e.name, some e.type, some rh.1.name, some rh.1.type,
                  some rh.2, none, none⟩]
              else
                ocs.map fun oc =>
                  ⟨some e.name, some e.type, some rh.1.name, some rh.1.type,
                   some rh.2, some oc.id, some oc.text⟩
    some ⟨cid, d.id, d.filename, (dedupFirst tuples).take 15⟩
  | _, _ => none

structure DCRecord where
  chunk_id : String
  document_id : String
  filename : String
  related_chunks : List String
deriving DecidableEq, Repr

/-- Model of `DOCUMENT_CONTEXT_QUERY`: same anchor pattern, collecting up to five
sibling chunk ids of the same document. -/
def documentContextRecord (g : GraphState) (cid : String) : Option DCRecord :=
  match findChunk g cid, containingDocs g cid with
  | some _, d :: _ =>
    let sibs := g.chunks.filter fun s => g.contains.contains (d.id, s.id) && s.id != cid
    some ⟨cid, d.id, d.filename, (dedupFirst (sibs.map (·.id))).take 5⟩
  | _, _ => none

/-- The per-chunk context dict built by `expand_graph_context`;
`related_chunks = none` models the key being absent. -/
structure CtxRecord where
  document_id : Option String
  filename : Option String
  entity_relations : List MHTuple
  related_chunks : Option (List String)
deriving DecidableEq, Repr

/-- One loop iteration of `expand_graph_context`: try the multi-hop query,
filter out null-entity tuples, and only on a missing record fall back to the
document-context query. -/
def expandOne (g : GraphState) (cid : String) : CtxRecord :=
  match multiHopRecord g cid with
  | some r =>
    ⟨some r.document_id, some r.filename,
     r.entity_relations.filter (fun t => t.entity.isSome), none⟩
  | none =>
    match documentContextRecord g cid with
    | some r => ⟨some r.document_id, some r.filename, [], some r.related_chunks⟩
    | none => ⟨none, none, [], none⟩

def expand_graph_context (g : GraphState) (chunk_ids : List String) :
    List (String × CtxRecord) :=
  chunk_ids.map fun cid => (cid, expandOne g cid)

/-! ### `delete_document` (models/document.py) -/

/-- Chunk ids matched by `(d:Document {id})-[:CONTAINS]->(c:Chunk)`. -/
def docChunkIds (g : GraphState) (document_id : String) : List String :=
  (g.chunks.filter fun c => g.contains.contains (document_id, c.id)).map (·.id)

/-- The first query's `collect(DISTINCT id(e))`: internal ids of entities with
an APPEARS_IN edge into one of the document's chunks. -/
def docEntityIds (g : GraphState) (document_id : String) : List Nat :=
  (g.entities.filter fun e =>
    (docChunkIds g document_id).any fun c => g.appears_in.contains (e.nid, c)).map (·.nid)

/-- The second query's `DETACH DELETE`: drop the document node, its chunk
nodes, and every edge incident to them (OWNS, CONTAINS, APPEARS_IN). -/
def detachDeleteDoc (g : GraphState) (document_id : String) : GraphState :=
  let cids := docChunkIds g document_id
  { g with
    docs := g.docs.filter fun d => d.id != document_id
    owns := g.owns.filter fun p => p.2 != document_id
    contains := g.contains.filter fun p => p.1 != document_id && !cids.contains p.2
    chunks := g.chunks.filter fun c => !cids.contains c.id
    appears_in := g.appears_in.filter fun p => !cids.contains p.2 }

/-- The orphan sweep's `WHERE` clause: collected ids whose entity has no
remaining APPEARS_IN edge (`NOT (e)-[:APPEARS_IN]->()`). -/
def orphanIds (g1 : GraphState) (eids : List Nat) : List Nat :=
  eids.filter fun eid => !(g1.appears_in.any fun p => p.1 == eid)

/-- Model of `delete_document`: ownership check, `DETACH DELETE` of the document and its
chunks, then the orphan sweep deleting exactly the previously-collected
entities that are left with no APPEARS_IN edge. -/
def delete_document (g : GraphState) (document_id user_id : String) :
    GraphState × Bool :=
  let found := g.users.contains user_id && g.owns.contains (user_id, document_id)
      && g.docs.any (fun d => d.id == document_id)
  if !found then (g, false)
  else
    let eids := docEntityIds g document_id
    let g1 := detachDeleteDoc g document_id
    if eids.isEmpty then (g1, true)
    else
      let dead := orphanIds g1 eids
      ({ g1 with
         entities := g1.entities.filter fun e => !dead.contains e.nid
         relates_to := g1.relates_to.filter fun ed =>
           !dead.contains ed.src && !dead.contains ed.tgt }, true)

/-! ## The Qdrant vector store (db/qdrant_client.py)

Points with their payload; `query_points` filters, ranks by a provider-defined
score (kept abstract as a parameter — cosine in production) and truncates. -/

structure QPoint where
  id : String
  vector : List ℚ
  text : String
  document_id : String
  user_id : String
  position : Nat
deriving DecidableEq, Repr

inductive PayloadMatch where
  | value (v : String)
  | anyOf (vs : List String)
deriving DecidableEq, Repr

structure FieldCondition where
  key : String
  matcher : PayloadMatch
deriving DecidableEq, Repr

structure QdrantFilter where
  must : List FieldCondition
deriving DecidableEq, Repr

/-- The payload written by `upsert_chunks` (string-valued keys). -/
def payloadGet (p : QPoint) : String → Option String
  | "text" => some p.text
  | "document_id" => some p.document_id
  | "user_id" => some p.user_id
  | _ => none

def condHolds (p : QPoint) (c : FieldCondition) : Bool :=
  match payloadGet p c.key, c.matcher with
  | some s, .value v => s == v
  | some s, .anyOf vs => vs.contains s
  | none, _ => false

def filterHolds (f : QdrantFilter) (p : QPoint) : Bool :=
  f.must.all (condHolds p)

/-- Stable insertion keeping descending key order (`sorted(…, reverse=True)`
semantics: an earlier element precedes later elements of equal key). -/
def insertDescBy {α : Type} (key : α → ℚ) (x : α) : List α → List α
  | [] => [x]
  | y :: ys => if key y ≤ key x then x :: y :: ys else y :: insertDescBy key x ys

def sortDescBy {α : Type} (key : α → ℚ) (l : List α) : List α :=
  l.foldr (insertDescBy key) []

def query_points (store : List QPoint) (score : QPoint → ℚ) (f : QdrantFilter)
    (limit : Nat) : List QPoint :=
  (sortDescBy score (store.filter (filterHolds f))).take limit

def SHARED_MEMORY_USER_ID : String := "__shared__"

/-- The filter construction of `search_similar_chunks`. -/
def searchFilter (user_id : String) (include_shared : Bool) : QdrantFilter :=
  if include_shared && user_id != SHARED_MEMORY_USER_ID then
    ⟨[⟨"user_id", .anyOf [user_id, SHARED_MEMORY_USER_ID]⟩]⟩
  else
    ⟨[⟨"user_id", .value user_id⟩]⟩

structure SearchHit where
  id : String
  score : ℚ
  text : String
  document_id : String
  position : Nat
deriving DecidableEq, Repr

def search_similar_chunks (store : List QPoint) (score : QPoint → ℚ)
    (user_id : String) (limit : Nat := 10) (include_shared : Bool := true) :
    List SearchHit :=
  (query_points store score (searchFilter user_id include_shared) limit).map
    fun p => ⟨p.id, score p, p.text, p.document_id, p.position⟩

structure UpsertChunk where
  id : String
  vector : List ℚ
  text : String
  document_id : String
  user_id : String
  position : Nat
deriving DecidableEq, Repr

def chunkPoint (c : UpsertChunk) : QPoint :=
  ⟨c.id, c.vector, c.text, c.document_id, c.user_id, c.position⟩

/-- Model of `upsert_chunks`: every chunk becomes a point whose payload carries
`user_id`; upsert replaces any existing point with the same id. -/
def upsert_chunks (store : List QPoint) (chunks : List UpsertChunk) : List QPoint :=
  store.filter (fun p => !(chunks.any fun c => c.id == p.id)) ++ chunks.map chunkPoint

/-! ## Hybrid merge (`_merge_and_rerank`, retrieval_service.py)

The Python dict `merged` is an insertion-ordered association list. -/

structure RChunk where
  id : String
  score : ℚ
  text : String
  retrieval_method : String
  matched_entity : Option String
  entity_type : Option String
deriving DecidableEq, Repr

def setVectorMethod (c : RChunk) : RChunk := { c with retrieval_method := "vector" }

/-- The both-paths branch: `score = min(score * 1.2, 1.0)`, method `"hybrid"`,
entity-match info carried over from the graph chunk. -/
def boostWith (gc : RChunk) (c : RChunk) : RChunk :=
  { c with
    score := min (c.score * (6/5 : ℚ)) 1
    retrieval_method := "hybrid"
    matched_entity := gc.matched_entity
    entity_type := gc.entity_type }

/-- Model of `merged[chunk_id] = {**chunk, "retrieval_method": "vector"}`. -/
def addVector (m : List RChunk) (c : RChunk) : List RChunk :=
  if m.any (fun x => x.id == c.id) then
    m.map fun x => if x.id == c.id then setVectorMethod c else x
  else m ++ [setVectorMethod c]

/-- The graph-chunk pass: boost on collision, otherwise insert as-is. -/
def addGraph (m : List RChunk) (gc : RChunk) : List RChunk :=
  if m.any (fun x => x.id == gc.id) then
    m.map fun x => if x.id == gc.id then boostWith gc x else x
  else m ++ [gc]

def mergedMap (vector_chunks graph_chunks : List RChunk) : List RChunk :=
  graph_chunks.foldl addGraph (vector_chunks.foldl addVector [])

def merge_and_rerank (vector_chunks graph_chunks : List RChunk)
    (max_results : Nat) : List RChunk :=
  (sortDescBy (·.score) (mergedMap vector_chunks graph_chunks)).take max_results

/-- First merged entry with a given chunk id. -/
def findId (m : List RChunk) (k : String) : Option RChunk :=
  m.find? fun x => x.id == k

/-- The merged association list holds each chunk id at most once. -/
def idsNodup (m : List RChunk) : Prop := (m.map (·.id)).Nodup

/-! ## Graph entity lookup at query time (C5)

`get_entity_chunks_for_query` and its `_safe_graph_entity_lookup` wrapper;
`runLookup` is the (fallible) Neo4j session executing `ENTITY_LOOKUP_QUERY`. -/

structure LookupRow where
  chunk_id : String
  chunk_text : String
  position : Nat
  document_id : String
  filename : String
  matched_entity : String
  entity_type : String
deriving DecidableEq, Repr

structure GEChunk where
  id : String
  text : String
  position : Nat
  document_id : String
  filename : String
  matched_entity : String
  entity_type : String
  score : ℚ
  retrieval_method : String
deriving DecidableEq, Repr

def get_entity_chunks_for_query (queryExtraction : ExtractionResult)
    (runLookup : List String → Except String (List LookupRow)) :
    Except String (List GEChunk) :=
  if queryExtraction.entities.isEmpty then .ok []
  else
    match runLookup (queryExtraction.entities.map fun e => normalize_entity_name e.name) with
    | .error e => .error e
    | .ok rows => .ok (rows.map fun r =>
        ⟨r.chunk_id, r.chunk_text, r.position, r.document_id, r.filename,
         r.matched_entity, r.entity_type, (7/10 : ℚ), "graph_entity_lookup"⟩)

/-- Model of `_safe_graph_entity_lookup`: gated by `GRAPHRAG_ENABLED`, and any
exception from the lookup is swallowed into an empty list. -/
def safe_graph_entity_lookup (graphragEnabled : Bool)
    (queryExtraction : ExtractionResult)
    (runLookup : List String → Except String (List LookupRow)) : List GEChunk :=
  if !graphragEnabled then []
  else
    match get_entity_chunks_for_query queryExtraction runLookup with
    | .ok l => l
    | .error _ => []

/-! ## Task tracking and the ingestion pipeline (C7, C8)

`task_tracker` updates and the externally visible effects of
`process_document_pipeline` as an event trace. -/

inductive TaskStatus where
  | pending | extracting | chunking | embedding | indexing | summarizing
  | extracting_entities | completed | failed
deriving DecidableEq, Repr

def STAGE_PROGRESS : TaskStatus → Nat
  | .pending => 0
  | .extracting => 10
  | .chunking => 25
  | .embedding => 40
  | .indexing => 60
  | .summarizing => 70
  | .extracting_entities => 75
  | .completed => 100
  | .failed => 0

/-- Per-chunk entity progress, `85 + int((completed / total) * 14)`.
The float expression is modelled with exact `Nat` division; both versions are
monotone in `completed` (composition of monotone rounding steps), which is the
property C7 is about. -/
def entityPct (completed total : Nat) : Nat := 85 + completed * 14 / total

inductive PipeEvent where
  | track (status : TaskStatus) (progress : Nat)
  | trackFail (error : String)
  | embedChunks (n : Nat)
  | storeNeo4j
  | storeQdrant
  | storeEntities (idx : Nat)
deriving DecidableEq, Repr

/-- The per-chunk `task_tracker.update(…, EXTRACTING_ENTITIES, progress=pct)`
events of `extract_entities_batch`, for counter values `ks`. -/
def entityUpdates (n : Nat) (ks : List Nat) : List PipeEvent :=
  ks.map fun k => .track .extracting_entities (entityPct k n)

/-- Counter values observed at successive per-chunk updates: the event loop is
single-threaded and `completed_count` only increments, so they are strictly
increasing values in `1..n` (not every value appears: blank chunks bump the
counter without an update). -/
def ValidCounters (n : Nat) (ks : List Nat) : Prop :=
  List.Chain' (· < ·) ks ∧ ∀ k ∈ ks, 1 ≤ k ∧ k ≤ n

/-- The event traces `process_document_pipeline` can produce for a document,
indexed by the chunker's output and the `GRAPHRAG_ENABLED` flag.  The leading
`pending` event is `task_tracker.create` in the upload handler; an exception in
any stage aborts the remaining stages and appends `task_tracker.fail`.
Entity extraction itself cannot raise (C10); `storeEntities` writes may. -/
inductive PipelineRun (chunks : List String) (graphrag : Bool) :
    List PipeEvent → Prop
  | extractFails (err : String) :
      PipelineRun chunks graphrag
        [.track .pending 0, .track .extracting 10, .trackFail err]
  | emptyChunks (h : chunks = []) :
      PipelineRun chunks graphrag
        [.track .pending 0, .track .extracting 10, .track .chunking 25,
         .trackFail "Document appears to be empty"]
  | embedFails (h : chunks ≠ []) (err : String) :
      PipelineRun chunks graphrag
        [.track .pending 0, .track .extracting 10, .track .chunking 25,
         .track .embedding 40, .trackFail err]
  | neo4jFails (h : chunks ≠ []) (err : String) :
      PipelineRun chunks graphrag
        [.track .pending 0, .track .extracting 10, .track .chunking 25,
         .track .embedding 40, .embedChunks chunks.length, .track .indexing 60,
         .trackFail err]
  | qdrantFails (h : chunks ≠ []) (err : String) :
      PipelineRun chunks graphrag
        [.track .pending 0, .track .extracting 10, .track .chunking 25,
         .track .embedding 40, .embedChunks chunks.length, .track .indexing 60,
         .storeNeo4j, .trackFail err]
  | entityStoreFails (h : chunks ≠ []) (hg : graphrag = true) (ks : List Nat)
      (hks : ValidCounters chunks.length ks) (stored : List Nat) (err : String) :
      PipelineRun chunks graphrag
        ([.track .pending 0, .track .extracting 10, .track .chunking 25,
          .track .embedding 40, .embedChunks chunks.length, .track .indexing 60,
          .storeNeo4j, .storeQdrant, .track .extracting_entities 75] ++
         entityUpdates chunks.length ks ++ stored.map .storeEntities ++
         [.trackFail err])
  | success (h : chunks ≠ []) (hg : graphrag = true) (ks : List Nat)
      (hks : ValidCounters chunks.length ks) (stored : List Nat) :
      PipelineRun chunks graphrag
        ([.track .pending 0, .track .extracting 10, .track .chunking 25,
          .track .embedding 40, .embedChunks chunks.length, .track .indexing 60,
          .storeNeo4j, .storeQdrant, .track .extracting_entities 75] ++
         entityUpdates chunks.length ks ++ stored.map .storeEntities ++
         [.track .completed 100])
  | successNoGraph (h : chunks ≠ []) (hg : graphrag = false) :
      PipelineRun chunks graphrag
        [.track .pending 0, .track .extracting 10, .track .chunking 25,
         .track .embedding 40, .embedChunks chunks.length, .track .indexing 60,
         .storeNeo4j, .storeQdrant, .track .completed 100]

/-- Progress values carried by non-terminal-failure tracker updates
(`task_tracker.fail` is the terminal `failed` write and is excluded: the claim
only constrains the sequence until a terminal state is reached). -/
def trackProgresses (evs : List PipeEvent) : List Nat :=
  evs.filterMap fun e =>
    match e with
    | .track _ p => some p
    | _ => none

/-! ## Concrete fixtures used by counterexamples and witnesses -/

/-- A document with two chunks and no Entity nodes (entity extraction not yet
run) — the situation §4.7 of the spec claims triggers the sibling fallback. -/
def exampleGraphNoEntities : GraphState :=
  ⟨["u"], [⟨"d", "u", "f.pdf"⟩], [⟨"c1", "d", "one", 0⟩, ⟨"c2", "d", "two", 1⟩],
   [("u", "d")], [("d", "c1"), ("d", "c2")], [], [], [], 0⟩

/-- Two documents: entity nid 0 appears only in d1's chunk, entity nid 1 in
both documents' chunks. -/
def exampleGraphTwoDocs : GraphState :=
  ⟨["u"], [⟨"d1", "u", "a.pdf"⟩, ⟨"d2", "u", "b.pdf"⟩],
   [⟨"c1", "d1", "one", 0⟩, ⟨"c2", "d2", "two", 0⟩],
   [("u", "d1"), ("u", "d2")], [("d1", "c1"), ("d2", "c2")],
   [⟨0, "Solo", "solo", "CONCEPT"⟩, ⟨1, "Both", "both", "CONCEPT"⟩],
   [(0, "c1"), (1, "c1"), (1, "c2")], [⟨0, 1, "RELATED_TO", "x"⟩], 2⟩

/-- A three-tenant vector store. -/
def exampleStore : List QPoint :=
  [⟨"p1", [], "ta", "d1", "alice", 0⟩,
   ⟨"p2", [], "tb", "d2", "bob", 0⟩,
   ⟨"p3", [], "ts", "d3", "__shared__", 0⟩]

end RagGraph

/-! # Theorems -/

namespace RagGraph

/-! ## Generic list lemmas -/

theorem mem_insertDescBy {α : Type} (key : α → ℚ) (x y : α) (l : List α) :
    y ∈ insertDescBy key x l ↔ y = x ∨ y ∈ l := by
  induction l with
  | nil => simp [insertDescBy]
  | cons z zs ih =>
    by_cases h : key z ≤ key x
    · simp [insertDescBy, h]
    · simp only [insertDescBy, if_neg h, List.mem_cons, ih]
      tauto

theorem mem_sortDescBy {α : Type} (key : α → ℚ) (y : α) (l : List α) :
    y ∈ sortDescBy key l ↔ y ∈ l := by
  induction l with
  | nil => simp [sortDescBy]
  | cons z zs ih =>
    simp only [sortDescBy, List.foldr_cons, List.mem_cons]
    rw [mem_insertDescBy]
    simp only [sortDescBy] at ih
    rw [ih]

theorem mem_dropTrailWhile {p : Char → Bool} {l : List Char} {x : Char}
    (h : x ∈ dropTrailWhile p l) : x ∈ l := by
  induction l with
  | nil => simp [dropTrailWhile] at h
  | cons c rest ih =>
    rw [dropTrailWhile] at h
    rcases hr : dropTrailWhile p rest with _ | ⟨r0, rs⟩ <;> rw [hr] at h
    · by_cases hp : p c <;> simp [hp] at h
      simp [h]
    · rcases List.mem_cons.1 h with h' | h'
      · simp [h']
      · exact List.mem_cons_of_mem _ (ih (hr ▸ h'))

theorem dropTrailWhile_head {p : Char → Bool} {l : List Char} {x : Char}
    {t : List Char} (h : dropTrailWhile p l = x :: t) : ∃ t', l = x :: t' := by
  cases l with
  | nil => simp [dropTrailWhile] at h
  | cons c rest =>
    rw [dropTrailWhile] at h
    rcases hr : dropTrailWhile p rest with _ | ⟨r0, rs⟩ <;> rw [hr] at h
    · by_cases hp : p c <;> simp [hp] at h
      exact ⟨rest, by rw [h.1]⟩
    · have hx : c = x := (List.cons.inj h).1
      exact ⟨rest, by rw [hx]⟩

/-! ## C1: the hybrid merge (`_merge_and_rerank`) -/

theorem findId_addVector (m : List RChunk) (c : RChunk) (k : String) :
    findId (addVector m c) k =
      if c.id = k then some (setVectorMethod c) else findId m k := by
  unfold addVector findId
  by_cases hany : m.any (fun x => x.id == c.id)
  · rw [if_pos hany, List.find?_map]
    have hpred : ((fun x : RChunk => x.id == k) ∘
        fun x => if x.id == c.id then setVectorMethod c else x) =
        fun x : RChunk => x.id == k := by
      funext x
      by_cases hx : x.id == c.id
      · simp only [Function.comp, hx, if_pos]
        have : x.id = c.id := by simpa using hx
        simp [setVectorMethod, this]
      · simp [Function.comp, hx]
    rw [hpred]
    by_cases hk : c.id = k
    · obtain ⟨x0, hx0m, hx0⟩ := List.any_eq_true.1 hany
      have hsome : (m.find? fun x => x.id == k).isSome := by
        rw [List.find?_isSome]
        exact ⟨x0, hx0m, by simpa [hk] using hx0⟩
      obtain ⟨y, hy⟩ := Option.isSome_iff_exists.1 hsome
      have hyid : y.id = k := by simpa using List.find?_some hy
      rw [if_pos hk, hy]
      simp [setVectorMethod, hyid, ← hk]
    · rw [if_neg hk]
      cases hf : List.find? (fun x : RChunk => x.id == k) m with
      | none => rfl
      | some y =>
        have hyid : y.id = k := by simpa using List.find?_some hf
        have hne : y.id ≠ c.id := by
          rw [hyid]
          exact fun h => hk h.symm
        simp only [Option.map_some']
        rw [if_neg (by simpa using hne)]
  · rw [if_neg hany, List.find?_append]
    by_cases hk : c.id = k
    · have hnone : (m.find? fun x => x.id == k) = none := by
        rw [List.find?_eq_none]
        intro x hx
        intro hxk
        exact hany (List.any_eq_true.2 ⟨x, hx, by simpa [hk] using hxk⟩)
      rw [if_pos hk, hnone]
      simp [setVectorMethod, hk]
    · have : ¬((setVectorMethod c).id == k) = true := by
        simp [setVectorMethod]; exact hk
      simp only [List.find?_cons, List.find?_nil, this, if_neg hk]
      simp [this, Option.or_none]

theorem findId_addGraph (m : List RChunk) (gc : RChunk) (k : String) :
    findId (addGraph m gc) k =
      if gc.id = k then
        (match findId m k with
         | some x => some (boostWith gc x)
         | none => some gc)
      else findId m k := by
  unfold addGraph findId
  by_cases hany : m.any (fun x => x.id == gc.id)
  · rw [if_pos hany, List.find?_map]
    have hpred : ((fun x : RChunk => x.id == k) ∘
        fun x => if x.id == gc.id then boostWith gc x else x) =
        fun x : RChunk => x.id == k := by
      funext x
      by_cases hx : x.id == gc.id
      · have : x.id = gc.id := by simpa using hx
        simp [Function.comp, hx, boostWith, this]
      · simp [Function.comp, hx]
    rw [hpred]
    by_cases hk : gc.id = k
    · obtain ⟨x0, hx0m, hx0⟩ := List.any_eq_true.1 hany
      have hsome : (m.find? fun x => x.id == k).isSome := by
        rw [List.find?_isSome]
        exact ⟨x0, hx0m, by simpa [hk] using hx0⟩
      obtain ⟨y, hy⟩ := Option.isSome_iff_exists.1 hsome
      have hyid : y.id = k := by simpa using List.find?_some hy
      rw [if_pos hk, hy]
      simp [hyid, ← hk]
    · rw [if_neg hk]
      cases hf : List.find? (fun x : RChunk => x.id == k) m with
      | none => rfl
      | some y =>
        have hyid : y.id = k := by simpa using List.find?_some hf
        have hne : y.id ≠ gc.id := by
          rw [hyid]
          exact fun h => hk h.symm
        simp only [Option.map_some']
        rw [if_neg (by simpa using hne)]
  · rw [if_neg hany, List.find?_append]
    by_cases hk : gc.id = k
    · have hnone : (m.find? fun x => x.id == k) = none := by
        rw [List.find?_eq_none]
        intro x hx hxk
        exact hany (List.any_eq_true.2 ⟨x, hx, by simpa [hk] using hxk⟩)
      rw [if_pos hk, hnone]
      simp [hk]
    · have hne : ¬(gc.id == k) = true := by simpa using hk
      rcases hf : m.find? fun x => x.id == k with _ | y
      · simp [List.find?_cons, hne, hk]
      · simp [hk]

theorem findId_foldV_nomatch (v : List RChunk) (m : List RChunk) (k : String)
    (h : ∀ c ∈ v, c.id ≠ k) :
    findId (v.foldl addVector m) k = findId m k := by
  induction v generalizing m with
  | nil => rfl
  | cons c rest ih =>
    rw [List.foldl_cons, ih _ (fun x hx => h x (List.mem_cons_of_mem _ hx)),
      findId_addVector, if_neg (h c (List.mem_cons_self _ _))]

theorem findId_foldV (v : List RChunk) (m : List RChunk) (k : String)
    (cv : RChunk) (h : v.filter (fun c => c.id == k) = [cv]) :
    findId (v.foldl addVector m) k = some (setVectorMethod cv) := by
  induction v generalizing m with
  | nil => simp at h
  | cons c rest ih =>
    by_cases hc : c.id = k
    · have hcb : (c.id == k) = true := by simpa using hc
      rw [List.filter_cons_of_pos (p := fun c : RChunk => c.id == k) hcb] at h
      have hcv : c = cv := (List.cons.inj h).1
      have hrest : rest.filter (fun c => c.id == k) = [] :=
        (List.cons.inj h).2
      have hnom : ∀ x ∈ rest, x.id ≠ k := by
        intro x hx hxk
        have := List.filter_eq_nil_iff.1 hrest x hx
        simp [hxk] at this
      rw [List.foldl_cons, findId_foldV_nomatch _ _ _ hnom, findId_addVector,
        if_pos hc, hcv]
    · have hcb : ¬(c.id == k) = true := by simpa using hc
      rw [List.filter_cons_of_neg (p := fun c : RChunk => c.id == k) hcb] at h
      rw [List.foldl_cons, ih _ h]

theorem findId_foldG_nomatch (gl : List RChunk) (m : List RChunk) (k : String)
    (h : ∀ c ∈ gl, c.id ≠ k) :
    findId (gl.foldl addGraph m) k = findId m k := by
  induction gl generalizing m with
  | nil => rfl
  | cons c rest ih =>
    rw [List.foldl_cons, ih _ (fun x hx => h x (List.mem_cons_of_mem _ hx)),
      findId_addGraph, if_neg (h c (List.mem_cons_self _ _))]

theorem findId_foldG (gl : List RChunk) (m : List RChunk) (k : String)
    (cg : RChunk) (h : gl.filter (fun c => c.id == k) = [cg]) :
    findId (gl.foldl addGraph m) k =
      (match findId m k with
       | some x => some (boostWith cg x)
       | none => some cg) := by
  induction gl generalizing m with
  | nil => simp at h
  | cons c rest ih =>
    by_cases hc : c.id = k
    · have hcb : (c.id == k) = true := by simpa using hc
      rw [List.filter_cons_of_pos (p := fun c : RChunk => c.id == k) hcb] at h
      have hcg : c = cg := (List.cons.inj h).1
      have hrest : rest.filter (fun c => c.id == k) = [] :=
        (List.cons.inj h).2
      have hnom : ∀ x ∈ rest, x.id ≠ k := by
        intro x hx hxk
        have := List.filter_eq_nil_iff.1 hrest x hx
        simp [hxk] at this
      rw [List.foldl_cons, findId_foldG_nomatch _ _ _ hnom, findId_addGraph,
        if_pos hc, hcg]
    · have hcb : ¬(c.id == k) = true := by simpa using hc
      rw [List.filter_cons_of_neg (p := fun c : RChunk => c.id == k) hcb] at h
      rw [List.foldl_cons, ih _ h, findId_addGraph, if_neg hc]

theorem idsNodup_addVector (m : List RChunk) (c : RChunk) (h : idsNodup m) :
    idsNodup (addVector m c) := by
  unfold addVector
  by_cases hany : m.any (fun x => x.id == c.id)
  · rw [if_pos hany]
    unfold idsNodup at h ⊢
    have : ((m.map fun x => if x.id == c.id then setVectorMethod c else x).map (·.id)) =
        m.map (·.id) := by
      rw [List.map_map]
      apply List.map_congr_left
      intro x _
      by_cases hx : x.id == c.id
      · have : x.id = c.id := by simpa using hx
        simp [Function.comp, hx, setVectorMethod, this]
      · simp [Function.comp, hx]
    rw [this]
    exact h
  · rw [if_neg hany]
    unfold idsNodup at h ⊢
    rw [List.map_append]
    simp only [List.map_cons, List.map_nil, setVectorMethod]
    rw [List.nodup_append]
    refine ⟨h, List.nodup_singleton _, ?_⟩
    intro a ha hb
    simp only [List.mem_singleton] at hb
    obtain ⟨x, hx, hxa⟩ := List.mem_map.1 ha
    exact hany (List.any_eq_true.2 ⟨x, hx, by simp [hxa, hb]⟩)

theorem idsNodup_addGraph (m : List RChunk) (gc : RChunk) (h : idsNodup m) :
    idsNodup (addGraph m gc) := by
  unfold addGraph
  by_cases hany : m.any (fun x => x.id == gc.id)
  · rw [if_pos hany]
    unfold idsNodup at h ⊢
    have : ((m.map fun x => if x.id == gc.id then boostWith gc x else x).map (·.id)) =
        m.map (·.id) := by
      rw [List.map_map]
      apply List.map_congr_left
      intro x _
      by_cases hx : x.id == gc.id
      · simp [Function.comp, hx, boostWith]
      · simp [Function.comp, hx]
    rw [this]
    exact h
  · rw [if_neg hany]
    unfold idsNodup at h ⊢
    rw [List.map_append]
    simp only [List.map_cons, List.map_nil]
    rw [List.nodup_append]
    refine ⟨h, List.nodup_singleton _, ?_⟩
    intro a ha hb
    simp only [List.mem_singleton] at hb
    obtain ⟨x, hx, hxa⟩ := List.mem_map.1 ha
    exact hany (List.any_eq_true.2 ⟨x, hx, by simp [hxa, hb]⟩)

theorem idsNodup_mergedMap (v gl : List RChunk) : idsNodup (mergedMap v gl) := by
  unfold mergedMap
  have h1 : idsNodup (v.foldl addVector []) := by
    generalize hm : ([] : List RChunk) = m
    have hm' : idsNodup m := by rw [← hm]; exact List.nodup_nil
    clear hm
    induction v generalizing m with
    | nil => exact hm'
    | cons c rest ih => exact ih _ (idsNodup_addVector _ _ hm')
  generalize hm : v.foldl addVector [] = m at h1 ⊢
  clear hm
  induction gl generalizing m with
  | nil => exact h1
  | cons gc rest ih => exact ih _ (idsNodup_addGraph _ _ h1)

theorem findId_eq_of_mem (m : List RChunk) (x : RChunk) (k : String)
    (hn : idsNodup m) (hx : x ∈ m) (hk : x.id = k) : findId m k = some x := by
  induction m with
  | nil => simp at hx
  | cons y rest ih =>
    unfold idsNodup at hn
    simp only [List.map_cons, List.nodup_cons] at hn
    by_cases hy : y.id = k
    · have : x = y := by
        rcases List.mem_cons.1 hx with h | h
        · exact h
        · exfalso
          exact hn.1 (List.mem_map.2 ⟨x, h, by rw [hk, hy]⟩)
      unfold findId
      rw [List.find?_cons]
      simp [hy, this]
    · have hxr : x ∈ rest := by
        rcases List.mem_cons.1 hx with h | h
        · exact absurd (h ▸ hk) hy
        · exact h
      unfold findId
      rw [List.find?_cons]
      have : ¬(y.id == k) = true := by simpa using hy
      simp only [this]
      exact ih hn.2 hxr

/-- C1 (counterexample): A chunk found by both paths with vector score 0.5
gets merged score `min(0.5 × 1.2, 1.0) = 0.6`, which is *not* ≥ the graph base
score 0.7 — refuting the claim that the boosted score is ≥ each individual
score whenever the boost applies. -/
theorem hybrid_merge_claim_counterexample :
    merge_and_rerank
        [⟨"c1", 1/2, "t", "", none, none⟩]
        [⟨"c1", 7/10, "t", "graph_entity_lookup", some "acme", some "ORGANIZATION"⟩] 3
      = [⟨"c1", 3/5, "t", "hybrid", some "acme", some "ORGANIZATION"⟩] ∧
    ¬ ((7/10 : ℚ) ≤ 3/5) := by
  constructor
  · simp [merge_and_rerank, mergedMap, addVector, addGraph, sortDescBy,
      insertDescBy, setVectorMethod, boostWith]
    rw [min_eq_left (by norm_num)]
    norm_num
  · norm_num

/-- C1 (amended): A chunk id occurring once in the vector list (entry `cv`)
and once in the graph list (entry `cg`) is assigned exactly the score
`min(cv.score × 1.2, 1.0)` and the tag `"hybrid"` (both in the merged map and
in every output entry with that id).  For `0 ≤ cv.score ≤ 1` the boosted score
is ≥ the vector score, but it is ≥ the graph base score 0.7 **iff**
`cv.score ≥ 7/12`; it is not in general ≥ both individual scores. -/
theorem hybrid_merge_boost (v gl : List RChunk) (k : String) (cv cg : RChunk)
    (hv : v.filter (fun c => c.id == k) = [cv])
    (hg : gl.filter (fun c => c.id == k) = [cg])
    (h0 : 0 ≤ cv.score) (h1 : cv.score ≤ 1) :
    findId (mergedMap v gl) k = some (boostWith cg (setVectorMethod cv)) ∧
    (boostWith cg (setVectorMethod cv)).score = min (cv.score * (6/5)) 1 ∧
    (boostWith cg (setVectorMethod cv)).retrieval_method = "hybrid" ∧
    (∀ n x, x ∈ merge_and_rerank v gl n → x.id = k →
      x = boostWith cg (setVectorMethod cv)) ∧
    cv.score ≤ (boostWith cg (setVectorMethod cv)).score ∧
    ((7/10 : ℚ) ≤ (boostWith cg (setVectorMethod cv)).score ↔
      (7/12 : ℚ) ≤ cv.score) := by
  have hfind : findId (mergedMap v gl) k = some (boostWith cg (setVectorMethod cv)) := by
    unfold mergedMap
    rw [findId_foldG _ _ _ _ hg, findId_foldV _ _ _ _ hv]
  have hscore : (boostWith cg (setVectorMethod cv)).score = min (cv.score * (6/5)) 1 := by
    simp [boostWith, setVectorMethod]
  refine ⟨hfind, hscore, by simp [boostWith], ?_, ?_, ?_⟩
  · intro n x hx hxk
    have hx1 : x ∈ mergedMap v gl :=
      (mem_sortDescBy _ _ _).1 (List.take_subset _ _ hx)
    have := findId_eq_of_mem _ x k (idsNodup_mergedMap v gl) hx1 hxk
    rw [hfind] at this
    exact (Option.some.inj this).symm
  · rw [hscore]
    refine le_min (by nlinarith) h1
  · rw [hscore]
    constructor
    · intro h
      have := (le_min_iff.1 h).1
      linarith
    · intro h
      refine le_min_iff.2 ⟨by linarith, by norm_num⟩

/-- C1 (witness): The amended theorem applied to concrete lists: a chunk in
both lists with vector score 3/4 gets score `min(0.9, 1.0) = 0.9`, tag
`"hybrid"`, and 0.9 ≥ 3/4 and 0.9 ≥ 0.7 (since 3/4 ≥ 7/12). -/
theorem hybrid_merge_boost_witness :
    findId (mergedMap
        [⟨"c1", 3/4, "t", "", none, none⟩]
        [⟨"c1", 7/10, "t", "graph_entity_lookup", some "acme", some "ORGANIZATION"⟩]) "c1"
      = some (boostWith
          ⟨"c1", 7/10, "t", "graph_entity_lookup", some "acme", some "ORGANIZATION"⟩
          (setVectorMethod ⟨"c1", 3/4, "t", "", none, none⟩)) ∧
    (boostWith
        ⟨"c1", 7/10, "t", "graph_entity_lookup", some "acme", some "ORGANIZATION"⟩
        (setVectorMethod ⟨"c1", 3/4, "t", "", none, none⟩)).score
      = min ((3/4 : ℚ) * (6/5)) 1 ∧
    (boostWith
        ⟨"c1", 7/10, "t", "graph_entity_lookup", some "acme", some "ORGANIZATION"⟩
        (setVectorMethod ⟨"c1", 3/4, "t", "", none, none⟩)).retrieval_method
      = "hybrid" ∧
    (∀ n x, x ∈ merge_and_rerank
        [⟨"c1", 3/4, "t", "", none, none⟩]
        [⟨"c1", 7/10, "t", "graph_entity_lookup", some "acme", some "ORGANIZATION"⟩] n →
      x.id = "c1" →
      x = boostWith
          ⟨"c1", 7/10, "t", "graph_entity_lookup", some "acme", some "ORGANIZATION"⟩
          (setVectorMethod ⟨"c1", 3/4, "t", "", none, none⟩)) ∧
    (3/4 : ℚ) ≤ (boostWith
        ⟨"c1", 7/10, "t", "graph_entity_lookup", some "acme", some "ORGANIZATION"⟩
        (setVectorMethod ⟨"c1", 3/4, "t", "", none, none⟩)).score ∧
    ((7/10 : ℚ) ≤ (boostWith
        ⟨"c1", 7/10, "t", "graph_entity_lookup", some "acme", some "ORGANIZATION"⟩
        (setVectorMethod ⟨"c1", 3/4, "t", "", none, none⟩)).score ↔
      (7/12 : ℚ) ≤ (3/4 : ℚ)) :=
  hybrid_merge_boost
    [⟨"c1", 3/4, "t", "", none, none⟩]
    [⟨"c1", 7/10, "t", "graph_entity_lookup", some "acme", some "ORGANIZATION"⟩]
    "c1" ⟨"c1", 3/4, "t", "", none, none⟩
    ⟨"c1", 7/10, "t", "graph_entity_lookup", some "acme", some "ORGANIZATION"⟩
    (by simp) (by simp) (by norm_num) (by norm_num)

/-! ## C2: tenant isolation of the vector store -/

/-- C2: (a) Every record returned by `search_similar_chunks` comes from a
stored point whose `user_id` payload equals the requesting owner, or — only
when `include_shared` is set and the owner is not the shared sentinel — equals
the sentinel `"__shared__"`; this holds for every scoring function, so no
record of another tenant is ever returned.  (b) Every point written by
`upsert_chunks` carries its chunk's owning `user_id` as a filterable payload
attribute. -/
theorem vector_store_tenant_isolation :
    (∀ (store : List QPoint) (score : QPoint → ℚ) (uid : String) (limit : Nat)
        (incl : Bool) (r : SearchHit),
      r ∈ search_similar_chunks store score uid limit incl →
      ∃ p ∈ store, r = ⟨p.id, score p, p.text, p.document_id, p.position⟩ ∧
        (p.user_id = uid ∨
         (incl = true ∧ uid ≠ SHARED_MEMORY_USER_ID ∧
          p.user_id = SHARED_MEMORY_USER_ID))) ∧
    (∀ (store : List QPoint) (chunks : List UpsertChunk) (p : QPoint),
      p ∈ upsert_chunks store chunks →
      p ∈ store ∨ ∃ c ∈ chunks, p = chunkPoint c ∧
        payloadGet p "user_id" = some c.user_id) := by
  constructor
  · intro store score uid limit incl r hr
    obtain ⟨p, hp, hpr⟩ := List.mem_map.1 hr
    have hp' : p ∈ store.filter (filterHolds (searchFilter uid incl)) :=
      (mem_sortDescBy _ _ _).1 (List.take_subset _ _ hp)
    obtain ⟨hmem, hfil⟩ := List.mem_filter.1 hp'
    refine ⟨p, hmem, hpr.symm, ?_⟩
    by_cases hcase : incl = true ∧ uid ≠ SHARED_MEMORY_USER_ID
    · have hcond : (incl && uid != SHARED_MEMORY_USER_ID) = true := by
        simp [hcase.1, hcase.2]
      rw [searchFilter, if_pos hcond] at hfil
      simp only [filterHolds, List.all_cons, List.all_nil, Bool.and_true,
        condHolds, payloadGet, List.contains_eq_any_beq, List.any_eq_true] at hfil
      obtain ⟨x, hx, hbeq⟩ := hfil
      have hxp : p.user_id = x := by simpa using hbeq
      simp only [List.mem_cons, List.not_mem_nil, or_false] at hx
      rcases hx with rfl | rfl
      · exact Or.inl hxp
      · exact Or.inr ⟨hcase.1, hcase.2, hxp⟩
    · have hcond : (incl && uid != SHARED_MEMORY_USER_ID) = false := by
        cases incl with
        | false => rfl
        | true =>
          have huid : uid = SHARED_MEMORY_USER_ID := by
            by_contra hne
            exact hcase ⟨rfl, hne⟩
          simp [huid]
      rw [searchFilter, if_neg (by simp [hcond])] at hfil
      simp only [filterHolds, List.all_cons, List.all_nil, Bool.and_true,
        condHolds, payloadGet, beq_iff_eq] at hfil
      exact Or.inl hfil
  · intro store chunks p hp
    rcases List.mem_append.1 hp with h | h
    · exact Or.inl (List.mem_filter.1 h).1
    · obtain ⟨c, hc, hcp⟩ := List.mem_map.1 h
      exact Or.inr ⟨c, hc, hcp.symm, by rw [← hcp]; rfl⟩

/-- C2 (witness): On a concrete three-tenant store, a concrete hit returned
for owner `"alice"` with shared inclusion satisfies the isolation disjunction. -/
theorem vector_store_tenant_isolation_witness :
    ∃ p ∈ exampleStore,
      (⟨"p1", 0, "ta", "d1", 0⟩ : SearchHit) =
        ⟨p.id, (fun _ => (0 : ℚ)) p, p.text, p.document_id, p.position⟩ ∧
      (p.user_id = "alice" ∨
       (true = true ∧ "alice" ≠ SHARED_MEMORY_USER_ID ∧
        p.user_id = SHARED_MEMORY_USER_ID)) :=
  vector_store_tenant_isolation.1 exampleStore (fun _ => 0) "alice" 10 true
    ⟨"p1", 0, "ta", "d1", 0⟩
    (by simp [search_similar_chunks, query_points, searchFilter,
          SHARED_MEMORY_USER_ID, exampleStore, filterHolds, condHolds,
          payloadGet, sortDescBy, insertDescBy])

/-! ## C5: graph entity lookup degrades silently -/

/-- C5: The query-time graph path returns `[]` (never an error) when the
query yields no extractable entities or when the underlying lookup raises; the
wrapper is a total function, and merging with an empty graph list leaves the
vector-only ranking. -/
theorem graph_lookup_degrades (enabled : Bool) (qe : ExtractionResult)
    (look : List String → Except String (List LookupRow)) :
    (qe.entities = [] →
      safe_graph_entity_lookup enabled qe look = [] ∧
      get_entity_chunks_for_query qe look = .ok []) ∧
    (∀ err, look (qe.entities.map fun e => normalize_entity_name e.name) = .error err →
      safe_graph_entity_lookup enabled qe look = []) ∧
    (∀ (v : List RChunk) (n : Nat),
      merge_and_rerank v [] n =
        (sortDescBy (fun c => c.score) (v.foldl addVector [])).take n) := by
  refine ⟨?_, ?_, fun v n => rfl⟩
  · intro h
    have hq : get_entity_chunks_for_query qe look = .ok [] := by
      simp [get_entity_chunks_for_query, h]
    refine ⟨?_, hq⟩
    cases enabled with
    | false => rfl
    | true => simp [safe_graph_entity_lookup, hq]
  · intro err herr
    cases enabled with
    | false => rfl
    | true =>
      by_cases h : qe.entities.isEmpty
      · simp [safe_graph_entity_lookup, get_entity_chunks_for_query, h]
      · simp [safe_graph_entity_lookup, get_entity_chunks_for_query, h, herr]

/-- C5 (witness): A concrete query extraction with one entity and a lookup
that raises: the safe wrapper returns the empty list. -/
theorem graph_lookup_degrades_witness :
    safe_graph_entity_lookup true ⟨[⟨"Acme", "ORGANIZATION", "acme"⟩], []⟩
      (fun _ => .error "neo4j down") = [] :=
  (graph_lookup_degrades true ⟨[⟨"Acme", "ORGANIZATION", "acme"⟩], []⟩
    (fun _ => .error "neo4j down")).2.1 "neo4j down" rfl

/-! ## C10: batch extraction is total and index-aligned -/

/-- C10: `extract_entities_batch` returns exactly one result per input
chunk, index-aligned: position `i` holds the empty result when chunk `i`'s text
is blank, and chunk `i`'s own extraction result otherwise (which is itself the
empty result on extraction failure, never an exception — the model is a total
function). -/
theorem batch_extraction_alignment (chunks : List BatchChunk)
    (outcomes : Nat → Except String RawExtraction) :
    (extract_entities_batch chunks outcomes).length = chunks.length ∧
    (∀ i c, chunks.get? i = some c →
      (extract_entities_batch chunks outcomes).get? i =
        some (if pyStrip c.text.data = [] then emptyResult
              else extract_entities_from_chunk (outcomes i))) ∧
    (∀ err, extract_entities_from_chunk (.error err) = emptyResult) := by
  refine ⟨?_, ?_, fun err => rfl⟩
  · simp [extract_entities_batch, List.enum_length]
  · intro i c hc
    unfold extract_entities_batch
    rw [List.get?_map, List.get?_enum, hc]
    rfl

/-- C10 (witness): A two-chunk batch (one blank, one failing extraction):
both positions are filled with the empty result, index-aligned. -/
theorem batch_extraction_alignment_witness :
    (extract_entities_batch [⟨"a", " "⟩, ⟨"b", "hello"⟩]
        (fun _ => .error "llm down")).get? 0 =
      some (if pyStrip (" " : String).data = [] then emptyResult
            else extract_entities_from_chunk (.error "llm down")) :=
  (batch_extraction_alignment [⟨"a", " "⟩, ⟨"b", "hello"⟩]
    (fun _ => .error "llm down")).2.1 0 ⟨"a", " "⟩ rfl

/-! ## C6: the graph-context fallback for entity-less chunks (code bug) -/

/-- C6 (code bug): For an existing chunk whose containing document exists
but which has no Entity nodes attached, `MULTI_HOP_QUERY` still returns a
record (its anchor `MATCH` needs only the chunk and its document; every
`OPTIONAL MATCH` may be null), so `expand_graph_context` takes the primary
branch and yields an *empty* expansion with no `related_chunks` key — even
though the sibling data exists and the fallback query would have returned it
(second conjunct).  The third conjunct shows the fallback is dead code for its
documented purpose: its record exists exactly when the multi-hop record does. -/
theorem expander_fallback_dead_code :
    expandOne exampleGraphNoEntities "c1" = ⟨some "d", some "f.pdf", [], none⟩ ∧
    documentContextRecord exampleGraphNoEntities "c1" =
      some ⟨"c1", "d", "f.pdf", ["c2"]⟩ ∧
    ∀ (g : GraphState) (cid : String),
      (multiHopRecord g cid).isSome ↔ (documentContextRecord g cid).isSome := by
  refine ⟨by decide, by decide, ?_⟩
  intro g cid
  rcases h1 : findChunk g cid with _ | c <;>
    rcases h2 : containingDocs g cid with _ | ⟨d, ds⟩ <;>
      simp [multiHopRecord, documentContextRecord, h1, h2]

/-! ## C9: entity garbage collection on document deletion -/

theorem contains_iff {α : Type} [BEq α] [LawfulBEq α] (l : List α) (a : α) :
    l.contains a = true ↔ a ∈ l := by
  simp [List.contains_eq_any_beq, List.any_eq_true]

theorem mem_appears_in_detachDeleteDoc (g : GraphState) (did : String)
    (n : Nat) (c : String) :
    (n, c) ∈ (detachDeleteDoc g did).appears_in ↔
      (n, c) ∈ g.appears_in ∧ c ∉ docChunkIds g did := by
  unfold detachDeleteDoc
  simp only [List.mem_filter, Bool.not_eq_true']
  constructor
  · rintro ⟨hm, hc⟩
    refine ⟨hm, fun hmem => ?_⟩
    rw [← Bool.not_eq_true] at hc
    exact hc ((contains_iff _ _).2 hmem)
  · rintro ⟨hm, hc⟩
    refine ⟨hm, ?_⟩
    cases hb : (docChunkIds g did).contains c
    · rfl
    · exact absurd ((contains_iff _ _).1 hb) hc

theorem mem_orphanIds (g1 : GraphState) (eids : List Nat) (n : Nat) :
    n ∈ orphanIds g1 eids ↔
      n ∈ eids ∧ ¬ ∃ p ∈ g1.appears_in, p.1 = n := by
  unfold orphanIds
  simp only [List.mem_filter, Bool.not_eq_true', ← Bool.not_eq_true,
    List.any_eq_true]
  constructor
  · rintro ⟨hm, hno⟩
    refine ⟨hm, fun ⟨p, hp, hpn⟩ => hno ⟨p, hp, by simp [hpn]⟩⟩
  · rintro ⟨hm, hno⟩
    refine ⟨hm, fun ⟨p, hp, hpn⟩ => hno ⟨p, hp, by simpa using hpn⟩⟩

theorem mem_docEntityIds (g : GraphState) (did : String) (n : Nat) :
    n ∈ docEntityIds g did ↔
      ∃ e2 ∈ g.entities, e2.nid = n ∧
        ∃ cid ∈ docChunkIds g did, (n, cid) ∈ g.appears_in := by
  unfold docEntityIds
  simp only [List.mem_map, List.mem_filter, List.any_eq_true]
  constructor
  · rintro ⟨e2, ⟨he2, cid, hcm, hc⟩, rfl⟩
    exact ⟨e2, he2, rfl, cid, hcm, (contains_iff _ _).1 hc⟩
  · rintro ⟨e2, he2, rfl, cid, hcm, hc⟩
    exact ⟨e2, ⟨he2, cid, hcm, (contains_iff _ _).2 hc⟩, rfl⟩

/-- C9: For an owned document, after `delete_document`: an entity that
appeared in one of the deleted document's chunks remains in the graph iff it
still has an APPEARS_IN edge to a chunk outside that document (in particular an
entity referenced by another document's chunks is preserved), and an entity
that did not appear in the document's chunks is always preserved. -/
theorem delete_document_entity_gc (g : GraphState) (did uid : String)
    (hu : uid ∈ g.users) (ho : (uid, did) ∈ g.owns)
    (hd : ∃ d ∈ g.docs, d.id = did)
    (e : EntityNode) (he : e ∈ g.entities) :
    ((∃ cid ∈ docChunkIds g did, (e.nid, cid) ∈ g.appears_in) →
      (e ∈ (delete_document g did uid).1.entities ↔
       ∃ c2, (e.nid, c2) ∈ g.appears_in ∧ c2 ∉ docChunkIds g did)) ∧
    ((¬ ∃ cid ∈ docChunkIds g did, (e.nid, cid) ∈ g.appears_in) →
      e ∈ (delete_document g did uid).1.entities) := by
  have hfound : (g.users.contains uid && g.owns.contains (uid, did)
      && g.docs.any (fun d => d.id == did)) = true := by
    obtain ⟨d, hdm, hdid⟩ := hd
    simp only [Bool.and_eq_true, List.any_eq_true]
    exact ⟨⟨(contains_iff _ _).2 hu, (contains_iff _ _).2 ho⟩,
      ⟨d, hdm, by simp [hdid]⟩⟩
  have hents : (detachDeleteDoc g did).entities = g.entities := rfl
  constructor
  · intro hedge
    have henid : e.nid ∈ docEntityIds g did := by
      obtain ⟨cid, hcm, hc⟩ := hedge
      exact (mem_docEntityIds g did e.nid).2 ⟨e, he, rfl, cid, hcm, hc⟩
    have hnonempty : (docEntityIds g did).isEmpty = false := by
      cases hne : (docEntityIds g did).isEmpty
      · rfl
      · rw [List.isEmpty_iff] at hne
        rw [hne] at henid
        simp at henid
    unfold delete_document
    rw [if_neg (by rw [hfound]; decide), if_neg (by rw [hnonempty]; decide)]
    simp only [List.mem_filter, hents, Bool.not_eq_true', ← Bool.not_eq_true]
    constructor
    · rintro ⟨-, hdead⟩
      by_contra hnorem
      push_neg at hnorem
      apply hdead
      apply (contains_iff _ _).2
      rw [mem_orphanIds]
      refine ⟨henid, ?_⟩
      rintro ⟨⟨n0, c0⟩, hp, hpn⟩
      cases hpn
      rw [mem_appears_in_detachDeleteDoc] at hp
      exact hp.2 (hnorem c0 hp.1)
    · intro hrem
      refine ⟨he, fun hdead => ?_⟩
      obtain ⟨c2, hc2, hout⟩ := hrem
      have := ((mem_orphanIds _ _ _).1 ((contains_iff _ _).1 hdead)).2
      exact this ⟨(e.nid, c2),
        (mem_appears_in_detachDeleteDoc g did e.nid c2).2 ⟨hc2, hout⟩, rfl⟩
  · intro hnoedge
    have henid : e.nid ∉ docEntityIds g did := fun hmem => by
      obtain ⟨e2, he2, hne, cid, hcm, hc⟩ := (mem_docEntityIds g did e.nid).1 hmem
      exact hnoedge ⟨cid, hcm, hc⟩
    unfold delete_document
    rw [if_neg (by rw [hfound]; decide)]
    cases hne : (docEntityIds g did).isEmpty
    · rw [if_neg (by rw [hne]; decide)]
      simp only [List.mem_filter, hents, Bool.not_eq_true', ← Bool.not_eq_true]
      refine ⟨he, fun hdead => ?_⟩
      exact henid ((mem_orphanIds _ _ _).1 ((contains_iff _ _).1 hdead)).1
    · rw [if_pos (by rw [hne])]
      exact he

/-- C9 (witness): On the two-document fixture, the shared entity (nid 1)
appears in `d2`'s chunk `c2 ∉ docChunkIds d1`, so deleting `d1` preserves it;
instantiating the theorem at that entity yields the biconditional concretely. -/
theorem delete_document_entity_gc_witness :
    ((∃ cid ∈ docChunkIds exampleGraphTwoDocs "d1",
        ((1 : Nat), cid) ∈ exampleGraphTwoDocs.appears_in) →
      ((⟨1, "Both", "both", "CONCEPT"⟩ : EntityNode) ∈
          (delete_document exampleGraphTwoDocs "d1" "u").1.entities ↔
       ∃ c2, ((1 : Nat), c2) ∈ exampleGraphTwoDocs.appears_in ∧
         c2 ∉ docChunkIds exampleGraphTwoDocs "d1")) ∧
    ((¬ ∃ cid ∈ docChunkIds exampleGraphTwoDocs "d1",
        ((1 : Nat), cid) ∈ exampleGraphTwoDocs.appears_in) →
      (⟨1, "Both", "both", "CONCEPT"⟩ : EntityNode) ∈
        (delete_document exampleGraphTwoDocs "d1" "u").1.entities) :=
  delete_document_entity_gc exampleGraphTwoDocs "d1" "u"
    (by decide) (by decide) ⟨⟨"d1", "u", "a.pdf"⟩, by decide, rfl⟩
    ⟨1, "Both", "both", "CONCEPT"⟩ (by decide)

/-! ## C4: relationship endpoints are validated against the chunk's entities -/

theorem mergeEntity_relates_to (cid : String) (g : GraphState) (e : EntityRec) :
    (mergeEntity cid g e).relates_to = g.relates_to := by
  unfold mergeEntity
  cases g.entities.find? fun x =>
      x.normalized_name == e.normalized_name && x.type == e.type <;>
    dsimp only <;> split <;> (try split) <;> rfl

theorem foldl_mergeEntity_relates_to (cid : String) (es : List EntityRec)
    (g : GraphState) :
    (es.foldl (mergeEntity cid) g).relates_to = g.relates_to := by
  induction es generalizing g with
  | nil => rfl
  | cons e rest ih => rw [List.foldl_cons, ih, mergeEntity_relates_to]

theorem addRelEdge_entities (t d : String) (g : GraphState)
    (st : EntityNode × EntityNode) : (addRelEdge t d g st).entities = g.entities := by
  unfold addRelEdge
  split <;> rfl

theorem foldl_addRelEdge_entities (t d : String) (ps : List (EntityNode × EntityNode))
    (g : GraphState) : (ps.foldl (addRelEdge t d) g).entities = g.entities := by
  induction ps generalizing g with
  | nil => rfl
  | cons p rest ih => rw [List.foldl_cons, ih, addRelEdge_entities]

theorem mergeRel_entities (g : GraphState) (r : RelRec) :
    (mergeRel g r).entities = g.entities := by
  unfold mergeRel
  exact foldl_addRelEdge_entities _ _ _ _

theorem addRelEdge_mem (t d : String) (g : GraphState)
    (st : EntityNode × EntityNode) (ed : RelEdge)
    (h : ed ∈ (addRelEdge t d g st).relates_to) :
    ed ∈ g.relates_to ∨ ed = ⟨st.1.nid, st.2.nid, t, d⟩ := by
  unfold addRelEdge at h
  split at h
  · exact Or.inl h
  · rcases List.mem_append.1 h with h1 | h1
    · exact Or.inl h1
    · exact Or.inr (List.mem_singleton.1 h1)

theorem foldl_addRelEdge_mem (t d : String) (ps : List (EntityNode × EntityNode))
    (g : GraphState) (ed : RelEdge)
    (h : ed ∈ (ps.foldl (addRelEdge t d) g).relates_to) :
    ed ∈ g.relates_to ∨ ∃ st ∈ ps, ed = ⟨st.1.nid, st.2.nid, t, d⟩ := by
  induction ps generalizing g with
  | nil => exact Or.inl h
  | cons p rest ih =>
    rw [List.foldl_cons] at h
    rcases ih _ h with h1 | ⟨st, hst, hed⟩
    · rcases addRelEdge_mem _ _ _ _ _ h1 with h2 | h2
      · exact Or.inl h2
      · exact Or.inr ⟨p, List.mem_cons_self _ _, h2⟩
    · exact Or.inr ⟨st, List.mem_cons_of_mem _ hst, hed⟩

theorem mergeRel_mem (g : GraphState) (r : RelRec) (ed : RelEdge)
    (h : ed ∈ (mergeRel g r).relates_to) :
    ed ∈ g.relates_to ∨
      ∃ s ∈ g.entities, ∃ t ∈ g.entities,
        s.normalized_name = r.source_normalized ∧
        t.normalized_name = r.target_normalized ∧
        ed = ⟨s.nid, t.nid, r.type, r.description⟩ := by
  unfold mergeRel at h
  rcases foldl_addRelEdge_mem _ _ _ _ _ h with h1 | ⟨st, hst, hed⟩
  · exact Or.inl h1
  · simp only [List.mem_flatMap, List.mem_map, List.mem_filter] at hst
    obtain ⟨s, ⟨hsm, hsn⟩, t, ⟨⟨htm, htn⟩, hstt⟩⟩ := hst
    refine Or.inr ⟨s, hsm, t, htm, by simpa using hsn, by simpa using htn, ?_⟩
    rw [hed, ← hstt]

theorem foldl_mergeRel_mem (rs : List RelRec) (g : GraphState) (ed : RelEdge)
    (h : ed ∈ (rs.foldl mergeRel g).relates_to) :
    ed ∈ g.relates_to ∨
      ∃ r ∈ rs, ∃ s ∈ g.entities, ∃ t ∈ g.entities,
        s.normalized_name = r.source_normalized ∧
        t.normalized_name = r.target_normalized ∧
        ed = ⟨s.nid, t.nid, r.type, r.description⟩ := by
  induction rs generalizing g with
  | nil => exact Or.inl h
  | cons r rest ih =>
    rw [List.foldl_cons] at h
    rcases ih _ h with h1 | ⟨r2, hr2, s, hs, t, ht, hsn, htn, hed⟩
    · rcases mergeRel_mem _ _ _ h1 with h2 | ⟨s, hs, t, ht, hsn, htn, hed⟩
      · exact Or.inl h2
      · exact Or.inr ⟨r, List.mem_cons_self _ _, s, hs, t, ht, hsn, htn, hed⟩
    · rw [mergeRel_entities] at hs ht
      exact Or.inr ⟨r2, List.mem_cons_of_mem _ hr2, s, hs, t, ht, hsn, htn, hed⟩

theorem validateRels_mem (norms : List String) (rels : List RawRel) (r : RelRec)
    (h : r ∈ validateRels norms rels) :
    r.source_normalized ∈ norms ∧ r.target_normalized ∈ norms := by
  obtain ⟨a, ha, hfa⟩ := List.mem_filterMap.1 h
  dsimp only [validateRels] at hfa
  split at hfa
  · rename_i hcond
    cases hfa
    exact hcond
  · exact Option.noConfusion hfa

/-- C4: (a) Every relationship returned by `extract_entities_from_chunk`
has both its normalized source and normalized target among the normalized
names of the entities returned for the same chunk — a relationship with a
dangling endpoint is never returned.  (b) Every `RELATES_TO` edge that
`store_entities_in_neo4j` adds when persisting such a result comes from one of
those validated relationships, between nodes carrying its normalized endpoint
names — so a dangling relationship is never persisted either. -/
theorem relationship_endpoints_validated (outcome : Except String RawExtraction) :
    (∀ r ∈ (extract_entities_from_chunk outcome).relationships,
      r.source_normalized ∈
        (extract_entities_from_chunk outcome).entities.map (fun e => e.normalized_name) ∧
      r.target_normalized ∈
        (extract_entities_from_chunk outcome).entities.map (fun e => e.normalized_name)) ∧
    (∀ (g : GraphState) (cid : String) (ed : RelEdge),
      ed ∈ (store_entities_in_neo4j g cid
              (extract_entities_from_chunk outcome).entities
              (extract_entities_from_chunk outcome).relationships).relates_to →
      ed ∈ g.relates_to ∨
        ∃ r ∈ (extract_entities_from_chunk outcome).relationships,
          ∃ s ∈ ((extract_entities_from_chunk outcome).entities.foldl
                  (mergeEntity cid) g).entities,
            ∃ t ∈ ((extract_entities_from_chunk outcome).entities.foldl
                    (mergeEntity cid) g).entities,
              s.normalized_name = r.source_normalized ∧
              t.normalized_name = r.target_normalized ∧
              ed = ⟨s.nid, t.nid, r.type, r.description⟩) := by
  constructor
  · intro r hr
    cases outcome with
    | error e => simp [extract_entities_from_chunk, emptyResult] at hr
    | ok raw => exact validateRels_mem _ _ r hr
  · intro g cid ed hed
    unfold store_entities_in_neo4j at hed
    rcases foldl_mergeRel_mem _ _ _ hed with h1 | hrest
    · rw [foldl_mergeEntity_relates_to] at h1
      exact Or.inl h1
    · exact Or.inr hrest

/-- C4 (witness): A concrete extraction: entities "Acme Corp"/"Bob"; the
relationship `"Acme Corp." → "Bob"` is kept (both normalize into the entity
set) and its normalized endpoints are in the chunk's entity-name set. -/
theorem relationship_endpoints_validated_witness :
    (⟨"Acme Corp.", "Bob", "acme", "bob", "WORKS_FOR", "Bob works at Acme"⟩ : RelRec).source_normalized ∈
      (extract_entities_from_chunk (.ok
        ⟨[⟨"Acme Corp", "organization"⟩, ⟨"Bob", "PERSON"⟩],
         [⟨"Acme Corp.", "Bob", "works_for", "Bob works at Acme"⟩,
          ⟨"Acme Corp", "Carol", "works_for", "dangling"⟩]⟩)).entities.map
        (fun e => e.normalized_name) ∧
    (⟨"Acme Corp.", "Bob", "acme", "bob", "WORKS_FOR", "Bob works at Acme"⟩ : RelRec).target_normalized ∈
      (extract_entities_from_chunk (.ok
        ⟨[⟨"Acme Corp", "organization"⟩, ⟨"Bob", "PERSON"⟩],
         [⟨"Acme Corp.", "Bob", "works_for", "Bob works at Acme"⟩,
          ⟨"Acme Corp", "Carol", "works_for", "dangling"⟩]⟩)).entities.map
        (fun e => e.normalized_name) :=
  (relationship_endpoints_validated (.ok
    ⟨[⟨"Acme Corp", "organization"⟩, ⟨"Bob", "PERSON"⟩],
     [⟨"Acme Corp.", "Bob", "works_for", "Bob works at Acme"⟩,
      ⟨"Acme Corp", "Carol", "works_for", "dangling"⟩]⟩)).1
    ⟨"Acme Corp.", "Bob", "acme", "bob", "WORKS_FOR", "Bob works at Acme"⟩
    (by decide)

/-! ## C7: ingestion progress is monotone until a terminal state -/

theorem mem_of_mem_getLast? {α : Type} {l : List α} {x : α}
    (h : x ∈ l.getLast?) : x ∈ l := by
  obtain ⟨hne, rfl⟩ := List.mem_getLast?_eq_getLast h
  exact List.getLast_mem hne

theorem mem_of_mem_head? {α : Type} {l : List α} {x : α}
    (h : x ∈ l.head?) : x ∈ l := by
  cases l with
  | nil => simp at h
  | cons a rest =>
    simp only [List.head?_cons, Option.mem_def, Option.some.injEq] at h
    rw [← h]
    exact List.mem_cons_self _ _

theorem entityPct_mono {n k k2 : Nat} (h : k ≤ k2) :
    entityPct k n ≤ entityPct k2 n :=
  Nat.add_le_add_left (Nat.div_le_div_right (Nat.mul_le_mul_right 14 h)) 85

theorem entityPct_le (n k : Nat) (hk : k ≤ n) : entityPct k n ≤ 100 := by
  unfold entityPct
  rcases Nat.eq_zero_or_pos n with h0 | h0
  · subst h0
    simp [Nat.div_zero]
  · have h2 : k * 14 / n ≤ n * 14 / n :=
      Nat.div_le_div_right (Nat.mul_le_mul_right 14 hk)
    have h3 : n * 14 / n = 14 := by
      rw [Nat.mul_comm]
      exact Nat.mul_div_cancel 14 h0
    have h4 : k * 14 / n ≤ 14 := by
      rw [h3] at h2
      exact h2
    exact Nat.le_trans (Nat.add_le_add_left h4 85) (by omega)

theorem entityPct_ge (n k : Nat) : 75 ≤ entityPct k n :=
  Nat.le_trans (by omega) (Nat.le_add_right 85 _)

theorem trackProgresses_append (a b : List PipeEvent) :
    trackProgresses (a ++ b) = trackProgresses a ++ trackProgresses b :=
  List.filterMap_append a b _

theorem trackProgresses_entityUpdates (n : Nat) (ks : List Nat) :
    trackProgresses (entityUpdates n ks) = ks.map (fun k => entityPct k n) := by
  induction ks with
  | nil => rfl
  | cons k rest ih =>
    simp only [entityUpdates, List.map_cons] at ih ⊢
    simp only [trackProgresses, List.filterMap_cons] at ih ⊢
    rw [ih]

theorem trackProgresses_storeEntities (stored : List Nat) :
    trackProgresses (stored.map PipeEvent.storeEntities) = [] := by
  induction stored with
  | nil => rfl
  | cons s rest ih =>
    simp only [List.map_cons, trackProgresses, List.filterMap_cons] at ih ⊢
    exact ih

/-- The pipeline's fixed stage prefix chained with the per-chunk batch
percentages `B` (all in `[75, 100]`) and an optional trailing `[100]`. -/
theorem chain_pipeline_append (B C : List Nat)
    (hB : List.Chain' (· ≤ ·) B) (hC : List.Chain' (· ≤ ·) C)
    (hbound : ∀ x ∈ B, 75 ≤ x ∧ x ≤ 100) (hC100 : ∀ y ∈ C, y = 100) :
    List.Chain' (· ≤ ·) ([0, 10, 25, 40, 60, 75] ++ (B ++ C)) := by
  refine List.Chain'.append (by simp [List.chain'_cons]) (List.Chain'.append hB hC ?_) ?_
  · intro x hx y hy
    have hx2 := (hbound x (mem_of_mem_getLast? hx)).2
    have hy2 := hC100 y (mem_of_mem_head? hy)
    omega
  · intro x hx y hy
    have h75 : ([0, 10, 25, 40, 60, 75] : List Nat).getLast? = some 75 := rfl
    rw [h75, Option.mem_def, Option.some.injEq] at hx
    rcases List.mem_append.1 (mem_of_mem_head? hy) with hyB | hyC
    · have := (hbound y hyB).1
      omega
    · have := hC100 y hyC
      omega

/-- C7: Along every trace of `process_document_pipeline` (any chunk count,
graphrag on or off, any failure point, any interleaving of the per-chunk
entity-extraction counters), the sequence of recorded progress percentages —
pending, extracting, chunking, embedding, indexing, extracting-entities with
per-chunk updates, completed — is monotonically non-decreasing up to the
terminal state; the record never regresses to an earlier stage's percentage. -/
theorem pipeline_progress_monotone (chunks : List String) (graphrag : Bool)
    (evs : List PipeEvent) (h : PipelineRun chunks graphrag evs) :
    List.Chain' (· ≤ ·) (trackProgresses evs) := by
  cases h with
  | extractFails err =>
    simp [trackProgresses, List.filterMap_cons, List.chain'_cons]
  | emptyChunks h =>
    simp [trackProgresses, List.filterMap_cons, List.chain'_cons]
  | embedFails h err =>
    simp [trackProgresses, List.filterMap_cons, List.chain'_cons]
  | neo4jFails h err =>
    simp [trackProgresses, List.filterMap_cons, List.chain'_cons]
  | qdrantFails h err =>
    simp [trackProgresses, List.filterMap_cons, List.chain'_cons]
  | successNoGraph h hg =>
    simp [trackProgresses, List.filterMap_cons, List.chain'_cons]
  | entityStoreFails h hg ks hks stored err =>
    rw [trackProgresses_append, trackProgresses_append, trackProgresses_append,
      trackProgresses_entityUpdates, trackProgresses_storeEntities]
    have hchain : List.Chain' (· ≤ ·)
        (ks.map (fun k => entityPct k chunks.length)) := by
      rw [List.chain'_map]
      exact hks.1.imp fun a b hab => entityPct_mono (Nat.le_of_lt hab)
    have hbound : ∀ x ∈ ks.map (fun k => entityPct k chunks.length),
        75 ≤ x ∧ x ≤ 100 := by
      intro x hx
      obtain ⟨k, hk, rfl⟩ := List.mem_map.1 hx
      exact ⟨entityPct_ge _ k, entityPct_le _ k (hks.2 k hk).2⟩
    have := chain_pipeline_append (ks.map (fun k => entityPct k chunks.length))
      [] hchain List.chain'_nil hbound (by simp)
    simpa [trackProgresses, List.filterMap_cons] using this
  | success h hg ks hks stored =>
    rw [trackProgresses_append, trackProgresses_append, trackProgresses_append,
      trackProgresses_entityUpdates, trackProgresses_storeEntities]
    have hchain : List.Chain' (· ≤ ·)
        (ks.map (fun k => entityPct k chunks.length)) := by
      rw [List.chain'_map]
      exact hks.1.imp fun a b hab => entityPct_mono (Nat.le_of_lt hab)
    have hbound : ∀ x ∈ ks.map (fun k => entityPct k chunks.length),
        75 ≤ x ∧ x ≤ 100 := by
      intro x hx
      obtain ⟨k, hk, rfl⟩ := List.mem_map.1 hx
      exact ⟨entityPct_ge _ k, entityPct_le _ k (hks.2 k hk).2⟩
    have := chain_pipeline_append (ks.map (fun k => entityPct k chunks.length))
      [100] hchain (List.chain'_singleton 100) hbound (by simp)
    simpa [trackProgresses, List.filterMap_cons] using this

/-- C7 (witness): A concrete successful two-chunk run with per-chunk
counters 1, 2: its recorded progress sequence is a `≤`-chain. -/
theorem pipeline_progress_monotone_witness :
    List.Chain' (· ≤ ·) (trackProgresses
      ([.track .pending 0, .track .extracting 10, .track .chunking 25,
        .track .embedding 40, .embedChunks (["x", "y"] : List String).length,
        .track .indexing 60, .storeNeo4j, .storeQdrant,
        .track .extracting_entities 75] ++
       entityUpdates (["x", "y"] : List String).length [1, 2] ++
       ([0, 1] : List Nat).map PipeEvent.storeEntities ++
       [.track .completed 100])) :=
  pipeline_progress_monotone ["x", "y"] true _
    (.success (by decide) rfl [1, 2]
      ⟨by simp [List.chain'_cons], by decide⟩ [0, 1])

/-! ## C8: an empty chunking result halts the pipeline before embedding -/

/-- C8: If the chunker produced no chunks and the run reached the chunking
stage, the trace is exactly: pending, extracting, chunking, then the terminal
failure carrying the descriptive message — and it contains no embedding call
and no write to the vector store, the graph store, or the entity store. -/
theorem empty_document_halts (chunks : List String) (graphrag : Bool)
    (evs : List PipeEvent) (h : PipelineRun chunks graphrag evs)
    (hempty : chunks = [])
    (hreached : PipeEvent.track .chunking 25 ∈ evs) :
    evs = [.track .pending 0, .track .extracting 10, .track .chunking 25,
           .trackFail "Document appears to be empty"] ∧
    (∀ n, PipeEvent.embedChunks n ∉ evs) ∧
    PipeEvent.storeNeo4j ∉ evs ∧ PipeEvent.storeQdrant ∉ evs ∧
    (∀ i, PipeEvent.storeEntities i ∉ evs) := by
  cases h with
  | extractFails err => simp at hreached
  | emptyChunks h => refine ⟨rfl, by simp, by simp, by simp, by simp⟩
  | embedFails h err => exact absurd hempty h
  | neo4jFails h err => exact absurd hempty h
  | qdrantFails h err => exact absurd hempty h
  | entityStoreFails h hg ks hks stored err => exact absurd hempty h
  | success h hg ks hks stored => exact absurd hempty h
  | successNoGraph h hg => exact absurd hempty h

/-- C8 (witness): The empty-chunks run instantiated concretely. -/
theorem empty_document_halts_witness :
    ([.track .pending 0, .track .extracting 10, .track .chunking 25,
      .trackFail "Document appears to be empty"] : List PipeEvent) =
      [.track .pending 0, .track .extracting 10, .track .chunking 25,
       .trackFail "Document appears to be empty"] ∧
    (∀ n, PipeEvent.embedChunks n ∉
      ([.track .pending 0, .track .extracting 10, .track .chunking 25,
        .trackFail "Document appears to be empty"] : List PipeEvent)) ∧
    PipeEvent.storeNeo4j ∉
      ([.track .pending 0, .track .extracting 10, .track .chunking 25,
        .trackFail "Document appears to be empty"] : List PipeEvent) ∧
    PipeEvent.storeQdrant ∉
      ([.track .pending 0, .track .extracting 10, .track .chunking 25,
        .trackFail "Document appears to be empty"] : List PipeEvent) ∧
    (∀ i, PipeEvent.storeEntities i ∉
      ([.track .pending 0, .track .extracting 10, .track .chunking 25,
        .trackFail "Document appears to be empty"] : List PipeEvent)) :=
  empty_document_halts [] true _ (.emptyChunks rfl) rfl (by decide)

/-! ## C3: entity-name normalization and idempotence -/

theorem bool_eq_false {b : Bool} (h : ¬ b = true) : b = false := by
  cases b
  · rfl
  · exact absurd rfl h

theorem headNot_dropWhile (p : Char → Bool) (l : List Char) :
    headNot p (l.dropWhile p) := by
  induction l with
  | nil => trivial
  | cons c rest ih =>
    rw [List.dropWhile_cons]
    split
    · exact ih
    · next hcp =>
      show p c = false
      cases hpc : p c
      · rfl
      · exact absurd hpc hcp

theorem dropWhile_eq_self_of_headNot {p : Char → Bool} {l : List Char}
    (h : headNot p l) : l.dropWhile p = l := by
  cases l with
  | nil => rfl
  | cons c rest =>
    have hc : p c = false := h
    rw [List.dropWhile_cons, if_neg (by simp [hc])]

theorem headNot_dropTrailWhile (q p : Char → Bool) {l : List Char}
    (h : headNot q l) : headNot q (dropTrailWhile p l) := by
  cases l with
  | nil => trivial
  | cons c rest =>
    rw [dropTrailWhile]
    cases hr : dropTrailWhile p rest with
    | nil =>
      show headNot q (if p c = true then [] else [c])
      by_cases hpc : p c = true
      · rw [if_pos hpc]
        trivial
      · rw [if_neg hpc]
        exact h
    | cons r0 rs => exact h

theorem lastNot_dropTrailWhile (p : Char → Bool) (l : List Char) :
    lastNot p (dropTrailWhile p l) := by
  induction l with
  | nil => trivial
  | cons c rest ih =>
    rw [dropTrailWhile]
    cases hr : dropTrailWhile p rest with
    | nil =>
      show lastNot p (if p c = true then [] else [c])
      by_cases hpc : p c = true
      · rw [if_pos hpc]
        trivial
      · rw [if_neg hpc]
        show p c = false
        exact bool_eq_false hpc
    | cons r0 rs =>
      show lastNot p (r0 :: rs)
      exact hr ▸ ih

theorem dropTrailWhile_eq_self {p : Char → Bool} {l : List Char}
    (h : lastNot p l) : dropTrailWhile p l = l := by
  induction l with
  | nil => rfl
  | cons c rest ih =>
    cases rest with
    | nil =>
      have hc : p c = false := h
      show dropTrailWhile p [c] = [c]
      simp [dropTrailWhile, hc]
    | cons d rest2 =>
      have hrest : lastNot p (d :: rest2) := h
      rw [dropTrailWhile, ih hrest]

theorem headNot_pyStrip (l : List Char) : headNot isSpaceChar (pyStrip l) :=
  headNot_dropTrailWhile _ _ (headNot_dropWhile _ l)

theorem lastNot_pyStrip (l : List Char) : lastNot isSpaceChar (pyStrip l) :=
  lastNot_dropTrailWhile _ _

theorem pyStrip_eq_self {l : List Char} (h1 : headNot isSpaceChar l)
    (h2 : lastNot isSpaceChar l) : pyStrip l = l := by
  unfold pyStrip
  rw [dropWhile_eq_self_of_headNot h1, dropTrailWhile_eq_self h2]

theorem charOfNat_toNat {n : Nat} (h : n < 55296) : (Char.ofNat n).toNat = n := by
  have hv : n.isValidChar := Or.inl h
  simp [Char.ofNat, Char.ofNatAux, Char.toNat, UInt32.toNat, BitVec.toNat_ofNatLt, hv]

theorem toLowerChar_idem (c : Char) :
    toLowerChar (toLowerChar c) = toLowerChar c := by
  unfold toLowerChar
  by_cases h : 65 ≤ c.toNat ∧ c.toNat ≤ 90
  · rw [if_pos h]
    have ht : (Char.ofNat (c.toNat + 32)).toNat = c.toNat + 32 :=
      charOfNat_toNat (by omega)
    rw [if_neg (by rw [ht]; omega)]
  · rw [if_neg h, if_neg h]

theorem mem_subSuffixAux {prev : Option Char} {l : List Char} {x : Char}
    (h : x ∈ subSuffixAux prev l) : x ∈ l := by
  induction l generalizing prev with
  | nil => simp [subSuffixAux] at h
  | cons c rest ih =>
    rw [subSuffixAux] at h
    split at h
    · simp at h
    · rcases List.mem_cons.1 h with rfl | h2
      · exact List.mem_cons_self _ _
      · exact List.mem_cons_of_mem _ (ih h2)

theorem mem_collapseWs {l : List Char} {x : Char} (h : x ∈ collapseWs l) :
    x = ' ' ∨ (x ∈ l ∧ isSpaceChar x = false) := by
  induction l with
  | nil => simp [collapseWs] at h
  | cons c rest ih =>
    cases rest with
    | nil =>
      rw [collapseWs] at h
      split at h
      · simp at h
        exact Or.inl h
      · next hc =>
        simp at h
        subst h
        exact Or.inr ⟨List.mem_cons_self _ _, by simpa using hc⟩
    | cons d rest2 =>
      rw [collapseWs] at h
      split at h
      · split at h
        · rcases ih h with h1 | ⟨h1, h2⟩
          · exact Or.inl h1
          · exact Or.inr ⟨List.mem_cons_of_mem _ h1, h2⟩
        · rcases List.mem_cons.1 h with rfl | h2
          · exact Or.inl rfl
          · rcases ih h2 with h1 | ⟨h1, h3⟩
            · exact Or.inl h1
            · exact Or.inr ⟨List.mem_cons_of_mem _ h1, h3⟩
      · next hc =>
        rcases List.mem_cons.1 h with rfl | h2
        · exact Or.inr ⟨List.mem_cons_self _ _, by simpa using hc⟩
        · rcases ih h2 with h1 | ⟨h1, h3⟩
          · exact Or.inl h1
          · exact Or.inr ⟨List.mem_cons_of_mem _ h1, h3⟩

theorem mem_pyStrip {l : List Char} {x : Char} (h : x ∈ pyStrip l) : x ∈ l :=
  List.dropWhile_subset _ (mem_dropTrailWhile h)

theorem map_id_of {α : Type} {f : α → α} {l : List α}
    (h : ∀ x ∈ l, f x = x) : l.map f = l := by
  induction l with
  | nil => rfl
  | cons c rest ih =>
    rw [List.map_cons, h c (List.mem_cons_self _ _),
      ih fun x hx => h x (List.mem_cons_of_mem _ hx)]

theorem normalizeChars_lower (l : List Char) :
    ∀ x ∈ normalizeChars l, toLowerChar x = x := by
  intro x hx
  unfold normalizeChars at hx
  rcases mem_collapseWs (mem_pyStrip hx) with rfl | ⟨hx2, -⟩
  · rfl
  · have hx3 := mem_subSuffixAux (mem_dropTrailWhile hx2)
    obtain ⟨z, hz, rfl⟩ := List.mem_map.1 hx3
    exact toLowerChar_idem z

theorem head?_collapseWs {d : Char} (rest : List Char)
    (hd : isSpaceChar d = false) : (collapseWs (d :: rest)).head? = some d := by
  cases rest with
  | nil => simp [collapseWs, hd]
  | cons e rest2 => simp [collapseWs, hd]

theorem collapsedOK_collapseWs (l : List Char) : collapsedOK (collapseWs l) := by
  induction l with
  | nil => exact ⟨by simp [collapseWs], List.chain'_nil⟩
  | cons c rest ih =>
    cases rest with
    | nil =>
      by_cases hc : isSpaceChar c
      · rw [collapseWs, if_pos hc]
        exact ⟨by simp, List.chain'_singleton _⟩
      · rw [collapseWs, if_neg hc]
        exact ⟨by simp [bool_eq_false hc], List.chain'_singleton _⟩
    | cons d rest2 =>
      rw [collapseWs]
      by_cases hc : isSpaceChar c
      · by_cases hd : isSpaceChar d
        · rw [if_pos hc, if_pos hd]
          exact ih
        · rw [if_pos hc, if_neg hd]
          obtain ⟨ihm, ihc⟩ := ih
          refine ⟨?_, ?_⟩
          · intro x hx
            rcases List.mem_cons.1 hx with rfl | hx
            · exact Or.inr rfl
            · exact ihm x hx
          · rw [List.chain'_cons']
            refine ⟨?_, ihc⟩
            intro y hy
            have hdf : isSpaceChar d = false := bool_eq_false hd
            have hh := @head?_collapseWs d rest2 hdf
            rw [hh] at hy
            simp only [Option.mem_def, Option.some.injEq] at hy
            subst hy
            exact Or.inr (bool_eq_false hd)
      · rw [if_neg hc]
        obtain ⟨ihm, ihc⟩ := ih
        refine ⟨?_, ?_⟩
        · intro x hx
          rcases List.mem_cons.1 hx with rfl | hx
          · exact Or.inl (bool_eq_false hc)
          · exact ihm x hx
        · rw [List.chain'_cons']
          exact ⟨fun y hy => Or.inl (bool_eq_false hc), ihc⟩

theorem collapseWs_eq_self {l : List Char} (h : collapsedOK l) :
    collapseWs l = l := by
  induction l with
  | nil => rfl
  | cons c rest ih =>
    obtain ⟨hm, hc⟩ := h
    have hrest : collapsedOK rest :=
      ⟨fun x hx => hm x (List.mem_cons_of_mem _ hx), hc.tail⟩
    cases rest with
    | nil =>
      rcases hm c (List.mem_cons_self _ _) with h1 | h1
      · rw [collapseWs, if_neg (by simp [h1])]
      · subst h1
        rfl
    | cons d rest2 =>
      rw [collapseWs]
      by_cases hcs : isSpaceChar c
      · have hceq : c = ' ' := by
          rcases hm c (List.mem_cons_self _ _) with h1 | h1
          · rw [h1] at hcs
            exact absurd hcs (by simp)
          · exact h1
        have hdns : isSpaceChar d = false := by
          rcases (List.chain'_cons.1 hc).1 with h1 | h1
          · rw [h1] at hcs
            exact absurd hcs (by simp)
          · exact h1
        rw [if_pos hcs, if_neg (by simp [hdns]), ih hrest, hceq]
      · rw [if_neg hcs, ih hrest]

theorem chain'_dropTrailWhile {R : Char → Char → Prop} {p : Char → Bool}
    {l : List Char} (h : List.Chain' R l) :
    List.Chain' R (dropTrailWhile p l) := by
  induction l with
  | nil => exact List.chain'_nil
  | cons c rest ih =>
    rw [dropTrailWhile]
    cases hr : dropTrailWhile p rest with
    | nil =>
      show List.Chain' R (if p c = true then [] else [c])
      by_cases hpc : p c = true
      · rw [if_pos hpc]
        exact List.chain'_nil
      · rw [if_neg hpc]
        exact List.chain'_singleton _
    | cons r0 rs =>
      obtain ⟨t, ht⟩ := dropTrailWhile_head hr
      subst ht
      rw [List.chain'_cons]
      exact ⟨(List.chain'_cons.1 h).1, hr ▸ ih h.tail⟩

theorem collapsedOK_dropWhile {p : Char → Bool} {l : List Char}
    (h : collapsedOK l) : collapsedOK (l.dropWhile p) := by
  induction l with
  | nil => exact h
  | cons c rest ih =>
    rw [List.dropWhile_cons]
    split
    · exact ih ⟨fun x hx => h.1 x (List.mem_cons_of_mem _ hx), h.2.tail⟩
    · exact h

theorem collapsedOK_dropTrailWhile {p : Char → Bool} {l : List Char}
    (h : collapsedOK l) : collapsedOK (dropTrailWhile p l) :=
  ⟨fun x hx => h.1 x (mem_dropTrailWhile hx), chain'_dropTrailWhile h.2⟩

/-- C3 (counterexample): Normalization is not idempotent: stripping the
suffix `" co"` from `"co co"` exposes a new suffix that only a second pass
removes — `normalize("co co") = "co"` while `normalize("co") = ""`. -/
theorem normalize_entity_name_not_idempotent :
    normalize_entity_name (normalize_entity_name "co co") ≠
      normalize_entity_name "co co" ∧
    normalize_entity_name "co co" = "co" ∧
    normalize_entity_name "co" = "" :=
  ⟨by decide, by decide, by decide⟩

/-- C3 (amended): `normalize_entity_name` is idempotent on every string
whose normalized form is left unchanged by a further suffix-strip and a
further trailing-punctuation-strip (the two stages a second pass can re-fire);
in general idempotence fails, as the counterexample shows.  The proof uses
that a normalized string is always already stripped, lower-case and
whitespace-collapsed. -/
theorem normalize_entity_name_idempotent_on_stable (s : String)
    (h1 : subSuffix (normalize_entity_name s).data = (normalize_entity_name s).data)
    (h2 : dropTrailWhile isPunctChar (normalize_entity_name s).data =
          (normalize_entity_name s).data) :
    normalize_entity_name (normalize_entity_name s) = normalize_entity_name s := by
  have hdata : ∀ m : List Char, (m.asString).data = m := fun m => rfl
  unfold normalize_entity_name at h1 h2 ⊢
  rw [hdata] at h1 h2
  simp only [hdata]
  congr 1
  have hhead : headNot isSpaceChar (normalizeChars s.data) := headNot_pyStrip _
  have hlast : lastNot isSpaceChar (normalizeChars s.data) := lastNot_pyStrip _
  have hcoll : collapsedOK (normalizeChars s.data) :=
    collapsedOK_dropTrailWhile (collapsedOK_dropWhile (collapsedOK_collapseWs _))
  have hlow : pyLower (normalizeChars s.data) = normalizeChars s.data :=
    map_id_of (normalizeChars_lower s.data)
  show pyStrip (collapseWs (dropTrailWhile isPunctChar (subSuffix
      (pyLower (pyStrip (normalizeChars s.data)))))) = normalizeChars s.data
  rw [pyStrip_eq_self hhead hlast, hlow, h1, h2, collapseWs_eq_self hcoll,
    pyStrip_eq_self hhead hlast]

/-- C3 (witness): `"Acme Corp"` normalizes to `"acme"`, which is stable
under both re-strippable stages, so normalization is idempotent on it. -/
theorem normalize_entity_name_idempotent_on_stable_witness :
    normalize_entity_name (normalize_entity_name "Acme Corp") =
      normalize_entity_name "Acme Corp" :=
  normalize_entity_name_idempotent_on_stable "Acme Corp" (by decide) (by decide)

end RagGraph
